import Mathlib

/-!
# gorma: relational field and model compilation

A shallow embedding of `field.go` and `relationalmodel.go`.

* Go pointers to structs become values; a method that mutates its receiver and
  returns `error` becomes a function returning the updated receiver together
  with `Option String` (`none` is Go's `nil` error).
* A Go `map[string]V` becomes an association list `List (String × V)`; the order
  of the list is the order in which one `range` over the map enumerates it, and a
  well-formed map has pairwise distinct keys.
* Everything that lives outside the two source files and whose behaviour the
  source does not fix (goa's `codegen.Goify`, `codegen.GoNativeType`, gorma's
  `deModel` and the `gengorma.Meta*` key constants) is a field of `Env`, so every
  theorem holds for all of them.
-/

namespace Gorma

/-! ## The goa `design` package, as far as the two files use it -/

/-- Go's `design.MetadataDefinition`, a `map[string]string`. -/
abbrev MetadataDefinition := List (String × String)

/-- A validation attached to an attribute; only the `required` validation is inspected. -/
inductive ValidationDefinition where
  | RequiredValidationDefinition (Names : List String)
  | OtherValidationDefinition (descr : String)
  deriving DecidableEq

mutual
/-- Go's `design.DataType`: the declared type of an attribute. `Object` is a
`map[string]*AttributeDefinition`. -/
inductive DataType where
  | Primitive (name : String)
  | Array (elemType : AttributeDefinition)
  | Hash (keyType : AttributeDefinition) (elemType : AttributeDefinition)
  | Object (members : List (String × AttributeDefinition))
/-- Go's `design.AttributeDefinition`. -/
inductive AttributeDefinition where
  | mk (type : DataType) (Description : String) (Metadata : MetadataDefinition)
      (Validations : List ValidationDefinition)
end

namespace AttributeDefinition

/-- Field `Type` of an attribute. -/
def Type' : AttributeDefinition → DataType
  | mk t _ _ _ => t

/-- Field `Description` of an attribute. -/
def Description : AttributeDefinition → String
  | mk _ d _ _ => d

/-- Field `Metadata` of an attribute. -/
def Metadata : AttributeDefinition → MetadataDefinition
  | mk _ _ m _ => m

/-- Field `Validations` of an attribute. -/
def Validations : AttributeDefinition → List ValidationDefinition
  | mk _ _ _ v => v

/-- Method `Definition()` of an attribute returns the attribute itself. -/
def Definition (a : AttributeDefinition) : AttributeDefinition := a

/-- Method `IsRequired(attName)`: some required-validation names the attribute. -/
def IsRequired (a : AttributeDefinition) (attName : String) : Bool :=
  a.Validations.any fun v =>
    match v with
    | .RequiredValidationDefinition names => names.any fun n => decide (n = attName)
    | .OtherValidationDefinition _ => false

end AttributeDefinition

/-- Go's `design.UserTypeDefinition`: an embedded attribute definition and a type name. -/
structure UserTypeDefinition where
  AttributeDefinition : AttributeDefinition
  TypeName : String

namespace UserTypeDefinition

/-- Method `Definition()` of a user type returns the embedded attribute. -/
def Definition (u : UserTypeDefinition) : Gorma.AttributeDefinition := u.AttributeDefinition

/-- Promoted field `Metadata`. -/
def Metadata (u : UserTypeDefinition) : MetadataDefinition := u.AttributeDefinition.Metadata

/-- Promoted method `IsRequired`. -/
def IsRequired (u : UserTypeDefinition) (attName : String) : Bool :=
  u.AttributeDefinition.IsRequired attName

end UserTypeDefinition

/-! ## What the two files import -/

/-- The collaborators of the two files that are defined elsewhere: goa's identifier
and type translation, gorma's `deModel`, and the metadata keys of `gengorma`. -/
structure Env where
  Goify : String → Bool → String
  GoNativeType : DataType → String
  deModel : String → String
  MetaPrimaryKey : String
  MetaSQLTag : String
  MetaTimestampCreated : String
  MetaTimestampUpdated : String
  MetaTimestampDeleted : String
  MetaGormTag : String
  MetaBelongsTo : String
  MetaHasOne : String
  MetaHasMany : String
  MetaManyToMany : String
  MetaCached : String
  MetaDynamicTableName : String
  MetaRoler : String
  MetaNoMedia : String
  MetaTableName : String

/-- Modelled from the spec: gorma's `metaLookup(md, key)`, which is not in the two
files; the spec (§9) gives it as `lookup(annotations, key) → optional<string>`,
the value stored under the key when the key is present. -/
def metaLookup (md : MetadataDefinition) (key : String) : Option String :=
  md.lookup key

/-- Go's `strings.HasSuffix`. -/
def HasSuffix (s suffix : String) : Bool :=
  suffix.data.isSuffixOf s.data

/-- Go's `strings.Contains`. -/
def Contains (s substr : String) : Bool :=
  decide (substr.data <:+: s.data)

/-- Value of a non-empty run of decimal digits; `none` on any other character. -/
def parseDigits : List Char → Option Nat → Option Nat
  | [], acc => acc
  | c :: cs, acc =>
    if c.isDigit then parseDigits cs (some (acc.getD 0 * 10 + (c.toNat - 48))) else none

/-- Go's `strconv.Atoi`: an optional sign followed by at least one decimal digit,
with a value in the range of a 64-bit `int`; otherwise an error (`none`). -/
def Atoi (s : String) : Option Int :=
  match s.data with
  | '-' :: ds =>
    match parseDigits ds none with
    | some n => if n ≤ 2 ^ 63 then some (-(n : Int)) else none
    | none => none
  | '+' :: ds =>
    match parseDigits ds none with
    | some n => if n < 2 ^ 63 then some (n : Int) else none
    | none => none
  | ds =>
    match parseDigits ds none with
    | some n => if n < 2 ^ 63 then some (n : Int) else none
    | none => none

/-- Go's order on strings, lexicographic on the characters. -/
def stringLE (a b : String) : Prop := a.data ≤ b.data

instance stringLE_decidable : DecidableRel stringLE := fun a b =>
  inferInstanceAs (Decidable (a.data ≤ b.data))

/-- Go's `sort.Strings`: the strings in ascending order. -/
def sortStrings (l : List String) : List String :=
  l.insertionSort stringLE

/-- Go's `m[k]` on a map: the value stored under `k`, `none` (a nil pointer) when absent. -/
def mapIndex {V : Type} (m : List (String × V)) (k : String) : Option V :=
  m.lookup k

/-- Go's `m[k] = v`: replace the value of an existing key, otherwise add the key. -/
def mapAssign {V : Type} : List (String × V) → String → V → List (String × V)
  | [], k, v => [(k, v)]
  | (k', v') :: m, k, v => if k' = k then (k, v) :: m else (k', v') :: mapAssign m k v

/-- The keys of a map in enumeration order (`for n := range m`). -/
def mapKeys {V : Type} (m : List (String × V)) : List String :=
  m.map Prod.fst

/-! ## `field.go` -/

/-- Modelled from the spec: the struct `RelationalFieldDefinition`, which is declared
outside the two files; its fields are those the two files read or write (§3, Field),
with the zero value of each type as default. -/
structure RelationalFieldDefinition where
  a : AttributeDefinition
  Name : String
  Datatype : String
  SQLTag : String
  DatabaseFieldName : String
  Description : String
  Nullable : Bool
  PrimaryKey : Bool
  Timestamp : Bool
  Aliased : Bool
  BelongsTo : String
  HasOne : String
  HasMany : String
  Many2Many : String

namespace RelationalFieldDefinition

/-- The value of `&RelationalFieldDefinition{}` followed by `f.a = a`. -/
def zero (a : AttributeDefinition) : RelationalFieldDefinition :=
  { a := a, Name := "", Datatype := "", SQLTag := "", DatabaseFieldName := "",
    Description := "", Nullable := false, PrimaryKey := false, Timestamp := false,
    Aliased := false, BelongsTo := "", HasOne := "", HasMany := "", Many2Many := "" }

/-- Method `ParsePrimaryKey`. -/
def ParsePrimaryKey (E : Env) (f : RelationalFieldDefinition) :
    RelationalFieldDefinition × Option String :=
  let f :=
    match metaLookup f.a.Metadata E.MetaPrimaryKey with
    | some gt => if Contains gt "primary_key" then { f with PrimaryKey := true } else f
    | none => f
  let f :=
    if f.Name = "ID" ∨ f.Name = "Id" ∨ f.Name = "id" then { f with PrimaryKey := true } else f
  (f, none)

/-- Method `ParseSQLTag`. -/
def ParseSQLTag (E : Env) (f : RelationalFieldDefinition) :
    RelationalFieldDefinition × Option String :=
  let f :=
    match metaLookup f.a.Metadata E.MetaSQLTag with
    | some gt => { f with SQLTag := gt }
    | none => f
  (f, none)

/-- Method `ParseTimestamps`. -/
def ParseTimestamps (E : Env) (f : RelationalFieldDefinition) :
    RelationalFieldDefinition × Option String :=
  let f :=
    match metaLookup f.a.Metadata E.MetaTimestampCreated with
    | some _ => { f with Timestamp := true, Datatype := "time.Time", Nullable := false }
    | none => f
  let f :=
    match metaLookup f.a.Metadata E.MetaTimestampUpdated with
    | some _ => { f with Timestamp := true, Datatype := "time.Time", Nullable := false }
    | none => f
  let f :=
    match metaLookup f.a.Metadata E.MetaTimestampDeleted with
    | some _ => { f with Timestamp := true, Datatype := "time.Time", Nullable := true }
    | none => f
  (f, none)

/-- Method `ParseAlias`. -/
def ParseAlias (E : Env) (f : RelationalFieldDefinition) :
    RelationalFieldDefinition × Option String :=
  let f :=
    match metaLookup f.a.Metadata E.MetaGormTag with
    | some gt => { f with Aliased := true, DatabaseFieldName := gt }
    | none => f
  (f, none)

/-- Method `ParseBelongsTo`. -/
def ParseBelongsTo (E : Env) (f : RelationalFieldDefinition) :
    RelationalFieldDefinition × Option String :=
  let f :=
    match metaLookup f.a.Metadata E.MetaBelongsTo with
    | some gt => { f with BelongsTo := gt }
    | none => f
  (f, none)

/-- Method `ParseManyToMany`. -/
def ParseManyToMany (E : Env) (f : RelationalFieldDefinition) :
    RelationalFieldDefinition × Option String :=
  let f :=
    match metaLookup f.a.Metadata E.MetaManyToMany with
    | some gt => { f with Many2Many := gt }
    | none => f
  (f, none)

/-- Method `ParseHasOne`. -/
def ParseHasOne (E : Env) (f : RelationalFieldDefinition) :
    RelationalFieldDefinition × Option String :=
  let f :=
    match metaLookup f.a.Metadata E.MetaHasOne with
    | some gt => { f with HasOne := gt }
    | none => f
  (f, none)

/-- Method `ParseHasMany`. -/
def ParseHasMany (E : Env) (f : RelationalFieldDefinition) :
    RelationalFieldDefinition × Option String :=
  let f :=
    match metaLookup f.a.Metadata E.MetaHasMany with
    | some gt => { f with HasMany := gt }
    | none => f
  (f, none)

/-- Method `ParseDescription`. -/
def ParseDescription (f : RelationalFieldDefinition) :
    RelationalFieldDefinition × Option String :=
  let f := if f.a.Description ≠ "" then { f with Description := f.a.Description } else f
  (f, none)

/-- Method `Parse`: the nine steps in order, stopping at the first error. -/
def Parse (E : Env) (f : RelationalFieldDefinition) :
    RelationalFieldDefinition × Option String :=
  match ParsePrimaryKey E f with
  | (f, some err) => (f, some err)
  | (f, none) =>
  match ParseSQLTag E f with
  | (f, some err) => (f, some err)
  | (f, none) =>
  match ParseTimestamps E f with
  | (f, some err) => (f, some err)
  | (f, none) =>
  match ParseAlias E f with
  | (f, some err) => (f, some err)
  | (f, none) =>
  match ParseBelongsTo E f with
  | (f, some err) => (f, some err)
  | (f, none) =>
  match ParseHasOne E f with
  | (f, some err) => (f, some err)
  | (f, none) =>
  match ParseHasMany E f with
  | (f, some err) => (f, some err)
  | (f, none) =>
  match ParseManyToMany E f with
  | (f, some err) => (f, some err)
  | (f, none) =>
  match ParseDescription f with
  | (f, some err) => (f, some err)
  | (f, none) => (f, none)

end RelationalFieldDefinition

/-- The name a field gets: `Goify(name, true)` with a final `Id` rewritten to `ID`. -/
def fieldName (E : Env) (name : String) : String :=
  let n := E.Goify name true
  if HasSuffix n "Id" then ⟨n.data.take (n.data.length - 2)⟩ ++ "ID" else n

/-- Function `NewRelationalFieldDefinition`: returns the field and the error of `Parse`. -/
def NewRelationalFieldDefinition (E : Env) (name : String) (a : AttributeDefinition) :
    RelationalFieldDefinition × Option String :=
  let f := RelationalFieldDefinition.zero a
  let t := a.Definition.Type'
  let f := { f with Datatype := E.GoNativeType t }
  let f := { f with Name := fieldName E name }
  let f := { f with DatabaseFieldName := f.Name }
  f.Parse E

/-! ## `relationalmodel.go` -/

/-- Modelled from the spec: the struct `RelationalModelDefinition`, which is declared
outside the two files; its fields are those the two files read or write (§3, Model).
The maps `HasMany`, `HasOne`, `ManyToMany` and `BelongsTo` of resolved models are
created empty and never written by the two files (the linking pass of §3 fills
them); they are left out. -/
structure RelationalModelDefinition where
  utd : UserTypeDefinition
  Name : String
  Fields : List (String × RelationalFieldDefinition)
  PrimaryKeys : List RelationalFieldDefinition
  belongsto : List String
  hasone : List String
  hasmany : List String
  many2many : List String
  Cached : Bool
  CacheDuration : Int
  SQLTag : String
  DynamicTableName : Bool
  Roler : Bool
  NoMedia : Bool
  TableName : String
  Alias : String

namespace RelationalModelDefinition

/-- The first block of `ParseOptions`: the cache key. Sets `Cached`, and either
`CacheDuration` or the error with which `ParseOptions` returns at once. -/
def parseCacheBlock (E : Env) (rm : RelationalModelDefinition) :
    RelationalModelDefinition × Option String :=
  match metaLookup rm.utd.Metadata E.MetaCached with
  | some val =>
    let rm := { rm with Cached := true }
    match Atoi val with
    | none => (rm, some "Cache duration must be a string that can be parsed as an integer")
    | some duration => ({ rm with CacheDuration := duration }, none)
  | none => (rm, none)

/-- The six blocks of `ParseOptions` after the cache block; none of them returns. -/
def parseFlagBlocks (E : Env) (rm : RelationalModelDefinition) : RelationalModelDefinition :=
  let rm :=
    match metaLookup rm.utd.Metadata E.MetaSQLTag with
    | some val => { rm with SQLTag := val }
    | none => rm
  let rm :=
    match metaLookup rm.utd.Metadata E.MetaDynamicTableName with
    | some _ => { rm with DynamicTableName := true }
    | none => rm
  let rm :=
    match metaLookup rm.utd.Metadata E.MetaRoler with
    | some _ => { rm with Roler := true }
    | none => rm
  let rm :=
    match metaLookup rm.utd.Metadata E.MetaNoMedia with
    | some _ => { rm with NoMedia := true }
    | none => rm
  let rm :=
    match metaLookup rm.utd.Metadata E.MetaTableName with
    | some val => { rm with TableName := val }
    | none => rm
  let rm :=
    match metaLookup rm.utd.Metadata E.MetaGormTag with
    | some val => { rm with Alias := val }
    | none => rm
  rm

/-- Method `ParseOptions`: the table-level options, read from the aggregate's metadata. -/
def ParseOptions (E : Env) (rm : RelationalModelDefinition) :
    RelationalModelDefinition × Option String :=
  match rm.utd.Definition.Type' with
  | .Object _ =>
    match parseCacheBlock E rm with
    | (rm, some err) => (rm, some err)
    | (rm, none) => (parseFlagBlocks E rm, none)
  | _ => (rm, some "gorma bug: unexpected data structure type")

/-- The body of the loop of `ParseFields` for one member name: compile the field,
apply the required override, store it, and collect the primary key and the
relationship names. A name without a member (a nil pointer, which aborts the Go
program) ends the loop with an error; `keys` only holds names of `actual`. -/
def parseFieldsStep (E : Env) (actual : List (String × AttributeDefinition))
    (rm : RelationalModelDefinition) (name : String) :
    RelationalModelDefinition × Option String :=
  match mapIndex actual name with
  | none => (rm, some "invalid memory address or nil pointer dereference")
  | some a =>
    match NewRelationalFieldDefinition E name a with
    | (_, some err) => (rm, some err)
    | (field, none) =>
      let field := if rm.utd.IsRequired name then { field with Nullable := false } else field
      let rm := { rm with Fields := mapAssign rm.Fields name field }
      let rm := if field.PrimaryKey then { rm with PrimaryKeys := rm.PrimaryKeys ++ [field] } else rm
      let rm := if field.BelongsTo ≠ "" then { rm with belongsto := rm.belongsto ++ [field.BelongsTo] } else rm
      let rm := if field.HasOne ≠ "" then { rm with hasone := rm.hasone ++ [field.HasOne] } else rm
      let rm := if field.HasMany ≠ "" then { rm with hasmany := rm.hasmany ++ [field.HasMany] } else rm
      let rm := if field.Many2Many ≠ "" then { rm with many2many := rm.many2many ++ [field.Many2Many] } else rm
      (rm, none)

/-- The loop `for _, name := range keys` of `ParseFields`, left at the first error. -/
def parseFieldsLoop (E : Env) (actual : List (String × AttributeDefinition)) :
    List String → RelationalModelDefinition → RelationalModelDefinition × Option String
  | [], rm => (rm, none)
  | name :: keys, rm =>
    match parseFieldsStep E actual rm name with
    | (rm, some err) => (rm, some err)
    | (rm, none) => parseFieldsLoop E actual keys rm

/-- Method `ParseFields`: the member names of an object are collected in the map's
enumeration order, sorted, and compiled one by one. -/
def ParseFields (E : Env) (rm : RelationalModelDefinition) :
    RelationalModelDefinition × Option String :=
  match rm.utd.Definition.Type' with
  | .Object actual =>
    let keys := sortStrings (mapKeys actual)
    parseFieldsLoop E actual keys rm
  | _ => (rm, some "Unexpected type")

/-- Method `Parse`: the options, then the fields. -/
def Parse (E : Env) (rm : RelationalModelDefinition) :
    RelationalModelDefinition × Option String :=
  match ParseOptions E rm with
  | (rm, some err) => (rm, some err)
  | (rm, none) =>
  match ParseFields E rm with
  | (rm, some err) => (rm, some err)
  | (rm, none) => (rm, none)

end RelationalModelDefinition

/-- The struct literal at the head of `NewRelationalModelDefinition`: the aggregate, the
name, empty maps and lists, and zero values for the options. -/
def newModel (E : Env) (name : String) (t : UserTypeDefinition) : RelationalModelDefinition :=
  { utd := t, Name := E.Goify (E.deModel name) true, Fields := [], PrimaryKeys := [],
    belongsto := [], hasone := [], hasmany := [], many2many := [],
    Cached := false, CacheDuration := 0, SQLTag := "", DynamicTableName := false,
    Roler := false, NoMedia := false, TableName := "", Alias := "" }

/-- Function `NewRelationalModelDefinition`: the model as `Parse` left it, and the
error of `Parse`. -/
def NewRelationalModelDefinition (E : Env) (name : String) (t : UserTypeDefinition) :
    RelationalModelDefinition × Option String :=
  let rm := newModel E name t
  rm.Parse E

/-! ## A concrete environment and sample aggregates, to run the definitions on -/

/-- A stand-in for `codegen.Goify(s, true)` on plain names: the first letter in upper case. -/
def sampleGoify (s : String) (firstUpper : Bool) : String :=
  match s.data with
  | [] => "_"
  | c :: cs => ⟨(if firstUpper then c.toUpper else c.toLower) :: cs⟩

/-- A stand-in for `codegen.GoNativeType` on the primitive types. -/
def sampleGoNativeType : DataType → String
  | .Primitive "integer" => "int"
  | .Primitive "string" => "string"
  | .Primitive "boolean" => "bool"
  | .Primitive "number" => "float64"
  | .Primitive _ => "any"
  | .Array _ => "[]any"
  | .Hash _ _ => "map[any]any"
  | .Object _ => "map[string]any"

/-- An environment with pairwise distinct metadata keys. -/
def sampleEnv : Env :=
  { Goify := sampleGoify, GoNativeType := sampleGoNativeType, deModel := fun s => s,
    MetaPrimaryKey := "#gormpktag", MetaSQLTag := "#sqltag",
    MetaTimestampCreated := "#timestampcreated", MetaTimestampUpdated := "#timestampupdated",
    MetaTimestampDeleted := "#timestampdeleted", MetaGormTag := "#gormtag",
    MetaBelongsTo := "#belongsto", MetaHasOne := "#hasone", MetaHasMany := "#hasmany",
    MetaManyToMany := "#manytomany", MetaCached := "#cached",
    MetaDynamicTableName := "#dyntablename", MetaRoler := "#roler", MetaNoMedia := "#nomedia",
    MetaTableName := "#tablename" }

/-- The sample environment with a `Goify` that returns the name unchanged, to reach
compiled names that start with a lower-case letter. -/
def sampleUnchangedNameEnv : Env :=
  { sampleEnv with Goify := fun s _ => s }

/-- A member of a primitive type with the given metadata. -/
def sampleMember (typeName : String) (md : MetadataDefinition) : AttributeDefinition :=
  .mk (.Primitive typeName) "" md []

/-- An aggregate of the given members, with metadata and required member names. -/
def sampleAggregate (members : List (String × AttributeDefinition)) (md : MetadataDefinition)
    (required : List String) : UserTypeDefinition :=
  { AttributeDefinition := .mk (.Object members) "" md [.RequiredValidationDefinition required],
    TypeName := "User" }

/-- The members of the `User` aggregate of the spec's scenario, in one enumeration order. -/
def sampleUserMembers : List (String × AttributeDefinition) :=
  [("id", sampleMember "integer" []), ("email", sampleMember "string" []),
   ("deletedAt", sampleMember "string" [("#timestampdeleted", "")])]

/-- The same members in another enumeration order. -/
def sampleUserMembersSwapped : List (String × AttributeDefinition) :=
  [("email", sampleMember "string" []), ("id", sampleMember "integer" []),
   ("deletedAt", sampleMember "string" [("#timestampdeleted", "")])]

/-- The `User` aggregate of the spec's scenario: `id`, `email` (required) and
`deletedAt` (deleted-timestamp). -/
def sampleUser : UserTypeDefinition :=
  sampleAggregate sampleUserMembers [] ["email"]

/-- The `User` aggregate with a cache duration of 300. -/
def sampleCachedUser : UserTypeDefinition :=
  sampleAggregate sampleUserMembers [("#cached", "300")] ["email"]

/-- The `User` aggregate with the cache value `abc`. -/
def sampleBadCacheUser : UserTypeDefinition :=
  sampleAggregate sampleUserMembers [("#cached", "abc")] ["email"]

/-- The `User` aggregate with `deletedAt` required as well. -/
def sampleRequiredDeleted : UserTypeDefinition :=
  sampleAggregate sampleUserMembers [] ["email", "deletedAt"]

/-- The `Post` aggregate of the spec's scenario: `authorId` belongs to `User`. -/
def samplePost : UserTypeDefinition :=
  sampleAggregate [("authorId", sampleMember "integer" [("#belongsto", "User")])] [] []

/-- A member that carries two relationship keys. -/
def sampleTwoRelations : AttributeDefinition :=
  sampleMember "integer" [("#belongsto", "User"), ("#hasone", "Profile")]

/-- An aggregate whose member `owner` carries the belongs-to key with an empty value. -/
def sampleEmptyBelongsTo : UserTypeDefinition :=
  sampleAggregate [("owner", sampleMember "integer" [("#belongsto", "")])] [] []

/-! ## Derived notions used to state the properties -/

/-- The field that `ParseFields` stores for member `name` with attribute `a`: the
field compiled by `NewRelationalFieldDefinition`, with `Nullable` cleared when the
aggregate requires the member. -/
def storedField (E : Env) (utd : UserTypeDefinition) (name : String) (a : AttributeDefinition) :
    RelationalFieldDefinition :=
  let field := (NewRelationalFieldDefinition E name a).1
  if utd.IsRequired name then { field with Nullable := false } else field

/-- The model after one stored field has been recorded: the tail of the loop body of
`ParseFields`. -/
def recordField (rm : RelationalModelDefinition) (name : String)
    (field : RelationalFieldDefinition) : RelationalModelDefinition :=
  { rm with
    Fields := mapAssign rm.Fields name field
    PrimaryKeys := rm.PrimaryKeys ++ (if field.PrimaryKey then [field] else [])
    belongsto := rm.belongsto ++ (if field.BelongsTo ≠ "" then [field.BelongsTo] else [])
    hasone := rm.hasone ++ (if field.HasOne ≠ "" then [field.HasOne] else [])
    hasmany := rm.hasmany ++ (if field.HasMany ≠ "" then [field.HasMany] else [])
    many2many := rm.many2many ++ (if field.Many2Many ≠ "" then [field.Many2Many] else []) }

/-- The stored fields of the member names `keys`, in the order of `keys`. -/
def storedFields (E : Env) (utd : UserTypeDefinition)
    (actual : List (String × AttributeDefinition)) (keys : List String) :
    List (String × RelationalFieldDefinition) :=
  keys.filterMap fun n => (mapIndex actual n).map fun a => (n, storedField E utd n a)

/-- The model after a run of stored fields has been recorded, one after the other. -/
def recordFields (rm : RelationalModelDefinition)
    (l : List (String × RelationalFieldDefinition)) : RelationalModelDefinition :=
  l.foldl (fun rm p => recordField rm p.1 p.2) rm

/-- The field compiled for a member, written out attribute by attribute; it is what
`NewRelationalFieldDefinition` returns (`NewRelationalFieldDefinition_eq`). -/
def compiledField (E : Env) (name : String) (a : AttributeDefinition) :
    RelationalFieldDefinition :=
  let created := (metaLookup a.Metadata E.MetaTimestampCreated).isSome
  let updated := (metaLookup a.Metadata E.MetaTimestampUpdated).isSome
  let deleted := (metaLookup a.Metadata E.MetaTimestampDeleted).isSome
  { a := a
    Name := fieldName E name
    Datatype := if created || updated || deleted then "time.Time" else E.GoNativeType a.Type'
    SQLTag := (metaLookup a.Metadata E.MetaSQLTag).getD ""
    DatabaseFieldName := (metaLookup a.Metadata E.MetaGormTag).getD (fieldName E name)
    Description := a.Description
    Nullable := deleted
    PrimaryKey :=
      (metaLookup a.Metadata E.MetaPrimaryKey).any (fun gt => Contains gt "primary_key") ||
        decide (fieldName E name = "ID" ∨ fieldName E name = "Id" ∨ fieldName E name = "id")
    Timestamp := created || updated || deleted
    Aliased := (metaLookup a.Metadata E.MetaGormTag).isSome
    BelongsTo := (metaLookup a.Metadata E.MetaBelongsTo).getD ""
    HasOne := (metaLookup a.Metadata E.MetaHasOne).getD ""
    HasMany := (metaLookup a.Metadata E.MetaHasMany).getD ""
    Many2Many := (metaLookup a.Metadata E.MetaManyToMany).getD "" }

/-- A member carries the metadata key `key`. -/
def carries (a : AttributeDefinition) (key : String) : Bool :=
  (metaLookup a.Metadata key).isSome

/-- The four kinds of relationship. -/
inductive RelationshipKind where
  | belongsTo
  | hasOne
  | hasMany
  | manyToMany
  deriving DecidableEq

namespace RelationshipKind

/-- The metadata key of a kind. -/
def key (E : Env) : RelationshipKind → String
  | belongsTo => E.MetaBelongsTo
  | hasOne => E.MetaHasOne
  | hasMany => E.MetaHasMany
  | manyToMany => E.MetaManyToMany

/-- The attribute of a field that holds the relationship of a kind. -/
def value : RelationshipKind → RelationalFieldDefinition → String
  | belongsTo, f => f.BelongsTo
  | hasOne, f => f.HasOne
  | hasMany, f => f.HasMany
  | manyToMany, f => f.Many2Many

/-- The list of a model that collects the names of a kind. -/
def names : RelationshipKind → RelationalModelDefinition → List String
  | belongsTo, rm => rm.belongsto
  | hasOne, rm => rm.hasone
  | hasMany, rm => rm.hasmany
  | manyToMany, rm => rm.many2many

end RelationshipKind

/-- How many of `BelongsTo`, `HasOne`, `HasMany` and `Many2Many` are non-empty. -/
def relationshipCount (f : RelationalFieldDefinition) : Nat :=
  (if f.BelongsTo ≠ "" then 1 else 0) + (if f.HasOne ≠ "" then 1 else 0) +
    (if f.HasMany ≠ "" then 1 else 0) + (if f.Many2Many ≠ "" then 1 else 0)

/-- A member carries the key with a non-empty value. -/
def carriesNonEmpty (a : AttributeDefinition) (key : String) : Bool :=
  (metaLookup a.Metadata key).any fun v => decide (v ≠ "")

/-- How many relationship kinds a member carries with a non-empty value. -/
def carriedRelationships (E : Env) (a : AttributeDefinition) : Nat :=
  (if carriesNonEmpty a E.MetaBelongsTo then 1 else 0) +
    (if carriesNonEmpty a E.MetaHasOne then 1 else 0) +
    (if carriesNonEmpty a E.MetaHasMany then 1 else 0) +
    (if carriesNonEmpty a E.MetaManyToMany then 1 else 0)

/-- A member name that ends in a lower-case `id`. -/
def sampleLowerIdName : String := "userid"

/-! ## `relationalmodel.go`: the where clause and the field iterator -/

/-- Go's `strings.Join`. -/
def Join (elems : List String) (sep : String) : String :=
  sep.intercalate elems

/-- Method `PKWhere`: one `<column> = ?` entry per primary key, joined with `and`. -/
def RelationalModelDefinition.PKWhere (f : RelationalModelDefinition) : String :=
  let pkwhere := f.PrimaryKeys.foldl (fun pkwhere pk => pkwhere ++ [pk.DatabaseFieldName ++ " = ?"]) []
  Join pkwhere "and"

/-- The order in which the `range` statements over maps in `IterateFields` enumerate
the keys: `enum i l` is the order in which the `i`-th such statement (counted from 0)
visits the keys `l` of its map. Go leaves the order open. -/
abbrev RangeOrder := Nat → List String → List String

/-- Every `range` visits each key of its map once: the order is a permutation. -/
def RangeOrder.Valid (enum : RangeOrder) : Prop :=
  ∀ i l, (enum i l).Perm l

namespace RelationalModelDefinition

/-- The test `p(rm.Fields[n])` on a key `n`; the loops only apply it to keys of
`rm.Fields`, for a key without a field it is `false`. -/
def fieldIs (rm : RelationalModelDefinition) (p : RelationalFieldDefinition → Bool)
    (n : String) : Bool :=
  match mapIndex rm.Fields n with
  | some f => p f
  | none => false

/-- One of the three loops that break the fields out: over the keys in `order`, every
key whose field passes `p` is stored under itself (`m[n] = n`). -/
def breakOut (rm : RelationalModelDefinition) (p : RelationalFieldDefinition → Bool)
    (order : List String) : List (String × String) :=
  order.foldl (fun m n => if rm.fieldIs p n then mapAssign m n n else m) []

/-- The values that `for _, v := range m` visits when the keys come in `order`. -/
def rangeValues (m : List (String × String)) (order : List String) : List String :=
  order.filterMap (mapIndex m)

/-- The locals `sortfields` and `fields` of `IterateFields` when the last loop starts.
`sortfields` is written at index `j = 0` only, sorted, and never read. -/
def iterationLocals (rm : RelationalModelDefinition) (enum : RangeOrder) :
    List String × List String :=
  let pks := rm.breakOut (fun f => f.PrimaryKey) (enum 0 (mapKeys rm.Fields))
  let names := rm.breakOut (fun f => !f.PrimaryKey && !f.Timestamp) (enum 1 (mapKeys rm.Fields))
  let dates := rm.breakOut (fun f => f.Timestamp) (enum 2 (mapKeys rm.Fields))
  let sortfields :=
    (enum 3 (mapKeys names)).foldl (fun s n => s.set 0 n) (List.replicate names.length "")
  let sortfields := sortStrings sortfields
  let fields :=
    rangeValues pks (enum 4 (mapKeys pks)) ++ rangeValues names (enum 5 (mapKeys names)) ++
      rangeValues dates (enum 6 (mapKeys dates))
  (sortfields, fields)

/-- The last loop of `IterateFields`: the callback on the field of each name in turn,
left at the first error. The result is the list of fields the callback was invoked
on, and the error. A name without a field (a nil pointer) ends the loop; `fields`
only holds keys of `rm.Fields`. -/
def iterateLoop (rm : RelationalModelDefinition) (it : RelationalFieldDefinition → Option String) :
    List String → List RelationalFieldDefinition × Option String
  | [] => ([], none)
  | n :: ns =>
    match mapIndex rm.Fields n with
    | none => ([], some "invalid memory address or nil pointer dereference")
    | some f =>
      match it f with
      | some err => ([f], some err)
      | none => (f :: (iterateLoop rm it ns).1, (iterateLoop rm it ns).2)

/-- Method `IterateFields`: the callback `it` on the primary keys, then on the fields
that are neither primary key nor timestamp, then on the timestamps. Returns the
fields the callback was invoked on, in order, and the error. -/
def IterateFields (rm : RelationalModelDefinition) (it : RelationalFieldDefinition → Option String)
    (enum : RangeOrder) : List RelationalFieldDefinition × Option String :=
  rm.iterateLoop it (rm.iterationLocals enum).2

end RelationalModelDefinition

/-- Every `range` in the order in which the map was built. -/
def sampleRangeOrder : RangeOrder := fun _ l => l

/-- Every `range` in descending order of the keys. -/
def sampleDescendingOrder : RangeOrder := fun _ l => (sortStrings l).reverse

/-- A callback that never fails. -/
def sampleCallback : RelationalFieldDefinition → Option String := fun _ => none

/-- An aggregate with two primary keys: `id` by its name and `key` by its metadata. -/
def sampleTwoKeys : UserTypeDefinition :=
  sampleAggregate
    [("key", sampleMember "string" [("#gormpktag", "primary_key")]),
     ("id", sampleMember "integer" [])] [] []

/-- An aggregate whose only member `id` is a primary key by its name and a timestamp by
its metadata. -/
def sampleKeyAndTimestamp : UserTypeDefinition :=
  sampleAggregate [("id", sampleMember "string" [("#timestampcreated", "")])] [] []

/-- An aggregate with two plain members `a` and `b`. -/
def sampleTwoPlain : UserTypeDefinition :=
  sampleAggregate [("a", sampleMember "string" []), ("b", sampleMember "string" [])] [] []

/-! ## The field compiler -/

theorem ParsePrimaryKey_eq (E : Env) (f : RelationalFieldDefinition) :
    f.ParsePrimaryKey E =
      ({ f with
          PrimaryKey :=
            (f.PrimaryKey ||
              (metaLookup f.a.Metadata E.MetaPrimaryKey).any fun gt => Contains gt "primary_key") ||
              decide (f.Name = "ID" ∨ f.Name = "Id" ∨ f.Name = "id") }, none) := by
  simp only [RelationalFieldDefinition.ParsePrimaryKey]
  cases metaLookup f.a.Metadata E.MetaPrimaryKey with
  | none =>
    by_cases h : f.Name = "ID" ∨ f.Name = "Id" ∨ f.Name = "id"
    · simp [h]
    · simp [h]
  | some gt =>
    by_cases hc : Contains gt "primary_key" = true <;>
    by_cases h : f.Name = "ID" ∨ f.Name = "Id" ∨ f.Name = "id" <;>
    simp [h, hc]

theorem ParseSQLTag_eq (E : Env) (f : RelationalFieldDefinition) :
    f.ParseSQLTag E =
      ({ f with SQLTag := (metaLookup f.a.Metadata E.MetaSQLTag).getD f.SQLTag }, none) := by
  simp only [RelationalFieldDefinition.ParseSQLTag]
  cases metaLookup f.a.Metadata E.MetaSQLTag <;> rfl

theorem ParseTimestamps_eq (E : Env) (f : RelationalFieldDefinition) :
    f.ParseTimestamps E =
      ({ f with
          Timestamp :=
            f.Timestamp || (metaLookup f.a.Metadata E.MetaTimestampCreated).isSome ||
              (metaLookup f.a.Metadata E.MetaTimestampUpdated).isSome ||
              (metaLookup f.a.Metadata E.MetaTimestampDeleted).isSome
          Datatype :=
            if (metaLookup f.a.Metadata E.MetaTimestampCreated).isSome ||
                (metaLookup f.a.Metadata E.MetaTimestampUpdated).isSome ||
                (metaLookup f.a.Metadata E.MetaTimestampDeleted).isSome
            then "time.Time" else f.Datatype
          Nullable :=
            (metaLookup f.a.Metadata E.MetaTimestampDeleted).isSome ||
              (f.Nullable && !(metaLookup f.a.Metadata E.MetaTimestampCreated).isSome &&
                !(metaLookup f.a.Metadata E.MetaTimestampUpdated).isSome) }, none) := by
  simp only [RelationalFieldDefinition.ParseTimestamps]
  cases metaLookup f.a.Metadata E.MetaTimestampCreated <;>
  cases metaLookup f.a.Metadata E.MetaTimestampUpdated <;>
  cases metaLookup f.a.Metadata E.MetaTimestampDeleted <;>
  simp

theorem ParseAlias_eq (E : Env) (f : RelationalFieldDefinition) :
    f.ParseAlias E =
      ({ f with
          Aliased := f.Aliased || (metaLookup f.a.Metadata E.MetaGormTag).isSome
          DatabaseFieldName :=
            (metaLookup f.a.Metadata E.MetaGormTag).getD f.DatabaseFieldName }, none) := by
  simp only [RelationalFieldDefinition.ParseAlias]
  cases metaLookup f.a.Metadata E.MetaGormTag <;> simp

theorem ParseBelongsTo_eq (E : Env) (f : RelationalFieldDefinition) :
    f.ParseBelongsTo E =
      ({ f with BelongsTo := (metaLookup f.a.Metadata E.MetaBelongsTo).getD f.BelongsTo },
        none) := by
  simp only [RelationalFieldDefinition.ParseBelongsTo]
  cases metaLookup f.a.Metadata E.MetaBelongsTo <;> rfl

theorem ParseHasOne_eq (E : Env) (f : RelationalFieldDefinition) :
    f.ParseHasOne E =
      ({ f with HasOne := (metaLookup f.a.Metadata E.MetaHasOne).getD f.HasOne }, none) := by
  simp only [RelationalFieldDefinition.ParseHasOne]
  cases metaLookup f.a.Metadata E.MetaHasOne <;> rfl

theorem ParseHasMany_eq (E : Env) (f : RelationalFieldDefinition) :
    f.ParseHasMany E =
      ({ f with HasMany := (metaLookup f.a.Metadata E.MetaHasMany).getD f.HasMany }, none) := by
  simp only [RelationalFieldDefinition.ParseHasMany]
  cases metaLookup f.a.Metadata E.MetaHasMany <;> rfl

theorem ParseManyToMany_eq (E : Env) (f : RelationalFieldDefinition) :
    f.ParseManyToMany E =
      ({ f with Many2Many := (metaLookup f.a.Metadata E.MetaManyToMany).getD f.Many2Many },
        none) := by
  simp only [RelationalFieldDefinition.ParseManyToMany]
  cases metaLookup f.a.Metadata E.MetaManyToMany <;> rfl

theorem ParseDescription_eq (f : RelationalFieldDefinition) :
    f.ParseDescription =
      ({ f with Description := if f.a.Description = "" then f.Description else f.a.Description },
        none) := by
  simp only [RelationalFieldDefinition.ParseDescription]
  by_cases h : f.a.Description = "" <;> simp [h]

/-- The field compiler never fails, and its result is `compiledField`. -/
theorem NewRelationalFieldDefinition_eq (E : Env) (name : String) (a : AttributeDefinition) :
    NewRelationalFieldDefinition E name a = (compiledField E name a, none) := by
  simp only [NewRelationalFieldDefinition, RelationalFieldDefinition.Parse, ParsePrimaryKey_eq,
    ParseSQLTag_eq, ParseTimestamps_eq, ParseAlias_eq, ParseBelongsTo_eq, ParseHasOne_eq,
    ParseHasMany_eq, ParseManyToMany_eq, ParseDescription_eq, RelationalFieldDefinition.zero,
    compiledField, AttributeDefinition.Definition]
  by_cases h : a.Description = "" <;> simp [h]

theorem NewRelationalFieldDefinition_no_error (E : Env) (name : String)
    (a : AttributeDefinition) : (NewRelationalFieldDefinition E name a).2 = none := by
  rw [NewRelationalFieldDefinition_eq]

theorem parseFieldsStep_eq (E : Env) (actual : List (String × AttributeDefinition))
    (rm : RelationalModelDefinition) (name : String) (a : AttributeDefinition)
    (ha : mapIndex actual name = some a) :
    RelationalModelDefinition.parseFieldsStep E actual rm name =
      (recordField rm name (storedField E rm.utd name a), none) := by
  have h := NewRelationalFieldDefinition_no_error E name a
  unfold RelationalModelDefinition.parseFieldsStep
  rw [ha]
  rcases hx : NewRelationalFieldDefinition E name a with ⟨field, err⟩
  rw [hx] at h
  simp only at h
  subst h
  simp only [storedField, recordField, hx]
  by_cases h1 : rm.utd.IsRequired name = true <;>
  by_cases h2 : field.PrimaryKey = true <;>
  by_cases h3 : field.BelongsTo = "" <;>
  by_cases h4 : field.HasOne = "" <;>
  by_cases h5 : field.HasMany = "" <;>
  by_cases h6 : field.Many2Many = "" <;>
  simp [h1, h2, h3, h4, h5, h6]

/-! ## The model compiler: table options -/

theorem parseFlagBlocks_frame (E : Env) (rm : RelationalModelDefinition) :
    (RelationalModelDefinition.parseFlagBlocks E rm).utd = rm.utd ∧
    (RelationalModelDefinition.parseFlagBlocks E rm).Fields = rm.Fields ∧
    (RelationalModelDefinition.parseFlagBlocks E rm).PrimaryKeys = rm.PrimaryKeys ∧
    (RelationalModelDefinition.parseFlagBlocks E rm).belongsto = rm.belongsto ∧
    (RelationalModelDefinition.parseFlagBlocks E rm).hasone = rm.hasone ∧
    (RelationalModelDefinition.parseFlagBlocks E rm).hasmany = rm.hasmany ∧
    (RelationalModelDefinition.parseFlagBlocks E rm).many2many = rm.many2many ∧
    (RelationalModelDefinition.parseFlagBlocks E rm).Cached = rm.Cached ∧
    (RelationalModelDefinition.parseFlagBlocks E rm).CacheDuration = rm.CacheDuration := by
  simp only [RelationalModelDefinition.parseFlagBlocks]
  repeat' split
  all_goals simp only [and_self]

theorem parseCacheBlock_frame (E : Env) (rm : RelationalModelDefinition) :
    (RelationalModelDefinition.parseCacheBlock E rm).1.utd = rm.utd ∧
    (RelationalModelDefinition.parseCacheBlock E rm).1.Fields = rm.Fields ∧
    (RelationalModelDefinition.parseCacheBlock E rm).1.PrimaryKeys = rm.PrimaryKeys ∧
    (RelationalModelDefinition.parseCacheBlock E rm).1.belongsto = rm.belongsto ∧
    (RelationalModelDefinition.parseCacheBlock E rm).1.hasone = rm.hasone ∧
    (RelationalModelDefinition.parseCacheBlock E rm).1.hasmany = rm.hasmany ∧
    (RelationalModelDefinition.parseCacheBlock E rm).1.many2many = rm.many2many := by
  simp only [RelationalModelDefinition.parseCacheBlock]
  repeat' split
  all_goals simp only [and_self]

/-- The cache block fails exactly on a cache value that `Atoi` rejects. -/
theorem parseCacheBlock_error_iff (E : Env) (rm : RelationalModelDefinition) :
    (RelationalModelDefinition.parseCacheBlock E rm).2 ≠ none ↔
      ∃ val, metaLookup rm.utd.Metadata E.MetaCached = some val ∧ Atoi val = none := by
  simp only [RelationalModelDefinition.parseCacheBlock]
  cases h : metaLookup rm.utd.Metadata E.MetaCached with
  | none => simp
  | some val =>
    cases h2 : Atoi val with
    | none => simp [h2]
    | some d => simp [h2]

/-- The cache block on a value that parses: `Cached` and the parsed duration. -/
theorem parseCacheBlock_parsed (E : Env) (rm : RelationalModelDefinition) (val : String)
    (d : Int) (h : metaLookup rm.utd.Metadata E.MetaCached = some val) (hd : Atoi val = some d) :
    RelationalModelDefinition.parseCacheBlock E rm =
      ({ rm with Cached := true, CacheDuration := d }, none) := by
  simp only [RelationalModelDefinition.parseCacheBlock, h, hd]

/-- The cache block on a value that does not parse: the error, `Cached` already set. -/
theorem parseCacheBlock_rejected (E : Env) (rm : RelationalModelDefinition) (val : String)
    (h : metaLookup rm.utd.Metadata E.MetaCached = some val) (hd : Atoi val = none) :
    RelationalModelDefinition.parseCacheBlock E rm =
      ({ rm with Cached := true },
        some "Cache duration must be a string that can be parsed as an integer") := by
  simp only [RelationalModelDefinition.parseCacheBlock, h, hd]

/-- The cache block without a cache key: nothing happens. -/
theorem parseCacheBlock_absent (E : Env) (rm : RelationalModelDefinition)
    (h : metaLookup rm.utd.Metadata E.MetaCached = none) :
    RelationalModelDefinition.parseCacheBlock E rm = (rm, none) := by
  simp only [RelationalModelDefinition.parseCacheBlock, h]

/-- On an object, `ParseOptions` is the cache block followed by the flag blocks. -/
theorem ParseOptions_object (E : Env) (rm : RelationalModelDefinition)
    (members : List (String × AttributeDefinition))
    (ht : rm.utd.Definition.Type' = .Object members) :
    rm.ParseOptions E =
      match RelationalModelDefinition.parseCacheBlock E rm with
      | (rm, some err) => (rm, some err)
      | (rm, none) => (RelationalModelDefinition.parseFlagBlocks E rm, none) := by
  simp only [RelationalModelDefinition.ParseOptions, ht]

/-- On anything but an object, `ParseOptions` fails and changes nothing. -/
theorem ParseOptions_not_object (E : Env) (rm : RelationalModelDefinition)
    (ht : ∀ members, rm.utd.Definition.Type' ≠ .Object members) :
    rm.ParseOptions E = (rm, some "gorma bug: unexpected data structure type") := by
  unfold RelationalModelDefinition.ParseOptions
  split
  · rename_i m hm
    exact absurd hm (ht m)
  · rfl

theorem ParseOptions_frame (E : Env) (rm : RelationalModelDefinition) :
    (rm.ParseOptions E).1.utd = rm.utd ∧ (rm.ParseOptions E).1.Fields = rm.Fields ∧
    (rm.ParseOptions E).1.PrimaryKeys = rm.PrimaryKeys ∧
    (rm.ParseOptions E).1.belongsto = rm.belongsto ∧
    (rm.ParseOptions E).1.hasone = rm.hasone ∧
    (rm.ParseOptions E).1.hasmany = rm.hasmany ∧
    (rm.ParseOptions E).1.many2many = rm.many2many := by
  unfold RelationalModelDefinition.ParseOptions
  split
  · have hc := parseCacheBlock_frame E rm
    rcases hx : RelationalModelDefinition.parseCacheBlock E rm with ⟨rm1, err⟩
    rw [hx] at hc
    obtain ⟨c1, c2, c3, c4, c5, c6, c7⟩ := hc
    cases err with
    | some e => exact ⟨c1, c2, c3, c4, c5, c6, c7⟩
    | none =>
      obtain ⟨f1, f2, f3, f4, f5, f6, f7, -, -⟩ := parseFlagBlocks_frame E rm1
      exact ⟨f1.trans c1, f2.trans c2, f3.trans c3, f4.trans c4, f5.trans c5, f6.trans c6,
        f7.trans c7⟩
  · simp only [and_self]

/-- The options fail exactly when the aggregate is not an object or its cache value
does not parse. -/
theorem ParseOptions_error_iff (E : Env) (rm : RelationalModelDefinition) :
    (rm.ParseOptions E).2 ≠ none ↔
      (∀ members, rm.utd.Definition.Type' ≠ .Object members) ∨
      ∃ val, metaLookup rm.utd.Metadata E.MetaCached = some val ∧ Atoi val = none := by
  rw [← parseCacheBlock_error_iff]
  unfold RelationalModelDefinition.ParseOptions
  split
  · rename_i m hm
    rcases hx : RelationalModelDefinition.parseCacheBlock E rm with ⟨rm1, err⟩
    cases err with
    | some e =>
      simp only [ne_eq, reduceCtorEq, not_false_eq_true, true_iff]
      exact Or.inr trivial
    | none =>
      simp only [ne_eq, not_true_eq_false, false_iff, not_or, not_forall, not_not]
      exact ⟨⟨m, hm⟩, not_false⟩
  · rename_i hm
    simp only [ne_eq, reduceCtorEq, not_false_eq_true, true_iff]
    exact Or.inl fun m h => hm m h
/-! ## Maps and sorting -/

theorem mapIndex_of_mem_mapKeys {V : Type} (m : List (String × V)) (k : String)
    (h : k ∈ mapKeys m) : ∃ v, mapIndex m k = some v := by
  induction m with
  | nil => simp [mapKeys] at h
  | cons p m ih =>
    obtain ⟨k', v'⟩ := p
    by_cases hk : k = k'
    · exact ⟨v', by simp [mapIndex, List.lookup_cons, hk]⟩
    · have hm : k ∈ mapKeys m := by
        simp only [mapKeys, List.map_cons, List.mem_cons] at h
        rcases h with h | h
        · exact absurd h hk
        · exact h
      obtain ⟨v, hv⟩ := ih hm
      refine ⟨v, ?_⟩
      have hb : (k == k') = false := by simpa using hk
      simpa [mapIndex, List.lookup_cons, hb] using hv

theorem mapIndex_mem {V : Type} (m : List (String × V)) (k : String) (v : V)
    (h : mapIndex m k = some v) : (k, v) ∈ m := by
  induction m with
  | nil => simp [mapIndex] at h
  | cons p m ih =>
    obtain ⟨k', v'⟩ := p
    by_cases hk : k = k'
    · subst hk
      simp [mapIndex, List.lookup_cons] at h
      simp [h]
    · have hb : (k == k') = false := by simpa using hk
      simp only [mapIndex, List.lookup_cons, hb] at h
      exact List.mem_cons_of_mem _ (ih h)

theorem mapIndex_eq_some_iff {V : Type} (m : List (String × V)) (hnd : (mapKeys m).Nodup)
    (k : String) (v : V) : mapIndex m k = some v ↔ (k, v) ∈ m := by
  refine ⟨mapIndex_mem m k v, ?_⟩
  induction m with
  | nil => simp
  | cons p m ih =>
    obtain ⟨k', v'⟩ := p
    simp only [mapKeys, List.map_cons, List.nodup_cons] at hnd
    intro h
    simp only [List.mem_cons, Prod.mk.injEq] at h
    rcases h with ⟨h1, h2⟩ | h
    · subst h1 h2
      simp [mapIndex, List.lookup_cons]
    · have hne : k ≠ k' := by
        intro e
        subst e
        exact hnd.1 (List.mem_map_of_mem Prod.fst h)
      have hb : (k == k') = false := by simpa using hne
      simp only [mapIndex, List.lookup_cons, hb]
      exact ih hnd.2 h

/-- Two enumerations of one map answer every index alike. -/
theorem mapIndex_perm {V : Type} (m₁ m₂ : List (String × V)) (hp : m₁.Perm m₂)
    (hnd : (mapKeys m₁).Nodup) (k : String) : mapIndex m₁ k = mapIndex m₂ k := by
  have hnd2 : (mapKeys m₂).Nodup := (hp.map Prod.fst).nodup_iff.mp hnd
  cases h : mapIndex m₁ k with
  | some v =>
    have := (mapIndex_eq_some_iff m₁ hnd k v).mp h
    exact ((mapIndex_eq_some_iff m₂ hnd2 k v).mpr (hp.subset this)).symm
  | none =>
    cases h2 : mapIndex m₂ k with
    | none => rfl
    | some v =>
      have := (mapIndex_eq_some_iff m₂ hnd2 k v).mp h2
      have h3 := (mapIndex_eq_some_iff m₁ hnd k v).mpr (hp.symm.subset this)
      rw [h] at h3
      cases h3

theorem stringLE_total : IsTotal String stringLE :=
  ⟨fun a b => le_total a.data b.data⟩

theorem stringLE_trans : IsTrans String stringLE :=
  ⟨fun a b c (h₁ : a.data ≤ b.data) (h₂ : b.data ≤ c.data) => le_trans h₁ h₂⟩

theorem stringLE_antisymm : IsAntisymm String stringLE :=
  ⟨fun a b (h₁ : a.data ≤ b.data) (h₂ : b.data ≤ a.data) => String.ext (le_antisymm h₁ h₂)⟩

theorem stringLE_iff_le (a b : String) : stringLE a b ↔ a ≤ b :=
  String.le_iff_toList_le.symm

theorem sortStrings_perm (l : List String) : (sortStrings l).Perm l :=
  List.perm_insertionSort stringLE l

theorem mem_sortStrings (l : List String) (n : String) : n ∈ sortStrings l ↔ n ∈ l :=
  (sortStrings_perm l).mem_iff

theorem sortStrings_sorted (l : List String) : (sortStrings l).Sorted stringLE :=
  haveI := stringLE_total
  haveI := stringLE_trans
  List.sorted_insertionSort stringLE l

theorem sortStrings_nodup (l : List String) (h : l.Nodup) : (sortStrings l).Nodup :=
  (sortStrings_perm l).nodup_iff.mpr h

/-- The sorted names of a well-formed map are strictly ascending. -/
theorem sortStrings_strict (l : List String) (h : l.Nodup) :
    (sortStrings l).Sorted (fun a b => a < b) := by
  have hs := sortStrings_sorted l
  have hn := sortStrings_nodup l h
  have hand : (sortStrings l).Pairwise (fun a b => stringLE a b ∧ a ≠ b) :=
    List.Pairwise.and hs hn
  exact hand.imp (fun {a b} hab => lt_of_le_of_ne ((stringLE_iff_le a b).mp hab.1) hab.2)

/-- Sorting does not depend on the enumeration order of the names. -/
theorem sortStrings_eq_of_perm (l₁ l₂ : List String) (hp : l₁.Perm l₂) :
    sortStrings l₁ = sortStrings l₂ :=
  haveI := stringLE_antisymm
  List.eq_of_perm_of_sorted
    (((sortStrings_perm l₁).trans hp).trans (sortStrings_perm l₂).symm)
    (sortStrings_sorted l₁) (sortStrings_sorted l₂)

/-! ## The model compiler: the field loop -/

theorem recordFields_cons (rm : RelationalModelDefinition)
    (p : String × RelationalFieldDefinition) (l : List (String × RelationalFieldDefinition)) :
    recordFields rm (p :: l) = recordFields (recordField rm p.1 p.2) l := rfl

/-- What a run of recorded fields leaves in the model. -/
theorem recordFields_proj (l : List (String × RelationalFieldDefinition))
    (rm : RelationalModelDefinition) :
    (recordFields rm l).utd = rm.utd ∧
    (recordFields rm l).Fields = l.foldl (fun m p => mapAssign m p.1 p.2) rm.Fields ∧
    (recordFields rm l).PrimaryKeys =
      rm.PrimaryKeys ++ (l.map Prod.snd).filter (fun f => f.PrimaryKey) ∧
    (recordFields rm l).belongsto =
      rm.belongsto ++ (l.map fun p => p.2.BelongsTo).filter (fun s => decide (s ≠ "")) ∧
    (recordFields rm l).hasone =
      rm.hasone ++ (l.map fun p => p.2.HasOne).filter (fun s => decide (s ≠ "")) ∧
    (recordFields rm l).hasmany =
      rm.hasmany ++ (l.map fun p => p.2.HasMany).filter (fun s => decide (s ≠ "")) ∧
    (recordFields rm l).many2many =
      rm.many2many ++ (l.map fun p => p.2.Many2Many).filter (fun s => decide (s ≠ "")) ∧
    (recordFields rm l).Cached = rm.Cached ∧
    (recordFields rm l).CacheDuration = rm.CacheDuration := by
  induction l generalizing rm with
  | nil => simp [recordFields]
  | cons p l ih =>
    rw [recordFields_cons]
    obtain ⟨h1, h2, h3, h4, h5, h6, h7, h8, h9⟩ := ih (recordField rm p.1 p.2)
    rw [h1, h2, h3, h4, h5, h6, h7, h8, h9]
    refine ⟨rfl, rfl, ?_, ?_, ?_, ?_, ?_, rfl, rfl⟩
    · by_cases hp : p.2.PrimaryKey = true <;> simp [recordField, hp]
    · by_cases hp : p.2.BelongsTo = "" <;> simp [recordField, hp]
    · by_cases hp : p.2.HasOne = "" <;> simp [recordField, hp]
    · by_cases hp : p.2.HasMany = "" <;> simp [recordField, hp]
    · by_cases hp : p.2.Many2Many = "" <;> simp [recordField, hp]

/-- The loop of `ParseFields` over names that all have a member never fails and
records the stored field of each name in turn. -/
theorem parseFieldsLoop_eq (E : Env) (actual : List (String × AttributeDefinition))
    (keys : List String) (rm : RelationalModelDefinition)
    (h : ∀ n ∈ keys, ∃ a, mapIndex actual n = some a) :
    RelationalModelDefinition.parseFieldsLoop E actual keys rm =
      (recordFields rm (storedFields E rm.utd actual keys), none) := by
  induction keys generalizing rm with
  | nil => rfl
  | cons n ks ih =>
    obtain ⟨a, ha⟩ := h n (List.mem_cons_self n ks)
    have hks : ∀ m ∈ ks, ∃ a, mapIndex actual m = some a :=
      fun m hm => h m (List.mem_cons_of_mem n hm)
    unfold RelationalModelDefinition.parseFieldsLoop
    rw [parseFieldsStep_eq E actual rm n a ha]
    simp only
    rw [ih (recordField rm n (storedField E rm.utd n a)) hks]
    have hu : (recordField rm n (storedField E rm.utd n a)).utd = rm.utd := rfl
    rw [hu]
    have hs : storedFields E rm.utd actual (n :: ks) =
        (n, storedField E rm.utd n a) :: storedFields E rm.utd actual ks := by
      simp [storedFields, List.filterMap_cons, ha]
    rw [hs, recordFields_cons]

/-- On an object, `ParseFields` never fails: it records the stored fields of the
sorted member names. -/
theorem ParseFields_object (E : Env) (rm : RelationalModelDefinition)
    (members : List (String × AttributeDefinition))
    (ht : rm.utd.Definition.Type' = .Object members) :
    rm.ParseFields E =
      (recordFields rm (storedFields E rm.utd members (sortStrings (mapKeys members))), none) := by
  simp only [RelationalModelDefinition.ParseFields, ht]
  apply parseFieldsLoop_eq
  intro n hn
  exact mapIndex_of_mem_mapKeys members n ((mem_sortStrings _ n).mp hn)

/-- Storing under fresh, pairwise distinct names appends. -/
theorem foldl_mapAssign_fresh {V : Type} (l m : List (String × V))
    (hnd : (mapKeys (m ++ l)).Nodup) :
    l.foldl (fun m p => mapAssign m p.1 p.2) m = m ++ l := by
  induction l generalizing m with
  | nil => simp
  | cons p l ih =>
    have hfresh : ∀ (m : List (String × V)), p.1 ∉ mapKeys m → mapAssign m p.1 p.2 = m ++ [p] := by
      intro m
      induction m with
      | nil => intro _; rfl
      | cons q m ihm =>
        intro hq
        simp only [mapKeys, List.map_cons, List.mem_cons, not_or] at hq
        have hne : ¬ q.1 = p.1 := fun e => hq.1 e.symm
        simp only [mapAssign, hne, if_false, List.cons_append]
        rw [ihm hq.2]
    have hp : p.1 ∉ mapKeys m := by
      simp only [mapKeys, List.map_append, List.map_cons] at hnd
      have := List.nodup_append.mp hnd
      intro hmem
      exact this.2.2 hmem (List.mem_cons_self _ _)
    simp only [List.foldl_cons]
    rw [hfresh m hp, ih (m ++ [p]) (by simpa using hnd)]
    simp

/-! ## The model compiler: `NewRelationalModelDefinition` -/

/-- The compile fails exactly when the aggregate is not an object or its cache value
does not parse; the fields never make it fail. -/
theorem New_error_iff (E : Env) (name : String) (t : UserTypeDefinition) :
    (NewRelationalModelDefinition E name t).2 ≠ none ↔
      (∀ members, t.Definition.Type' ≠ .Object members) ∨
      ∃ val, metaLookup t.Metadata E.MetaCached = some val ∧ Atoi val = none := by
  have hiff := ParseOptions_error_iff E (newModel E name t)
  have hfr := (ParseOptions_frame E (newModel E name t)).1
  simp only [NewRelationalModelDefinition, RelationalModelDefinition.Parse]
  rcases hx : (newModel E name t).ParseOptions E with ⟨rm1, err⟩
  rw [hx] at hiff hfr
  cases err with
  | some e =>
    simp only [ne_eq, reduceCtorEq, not_false_eq_true, true_iff] at hiff ⊢
    exact hiff
  | none =>
    simp only [ne_eq, not_true_eq_false, false_iff] at hiff
    have hobj : ∃ members, t.Definition.Type' = .Object members := by
      by_contra hc
      exact hiff (Or.inl fun m hm => hc ⟨m, hm⟩)
    obtain ⟨members, hm⟩ := hobj
    have hm1 : rm1.utd.Definition.Type' = .Object members := by
      simp only at hfr
      rw [hfr]
      exact hm
    simp only [ParseFields_object E rm1 members hm1, ne_eq, not_true_eq_false, false_iff]
    exact hiff

/-- A failed compile has compiled no field. -/
theorem New_failed (E : Env) (name : String) (t : UserTypeDefinition)
    (herr : (NewRelationalModelDefinition E name t).2 ≠ none) :
    (NewRelationalModelDefinition E name t).1.Fields = [] ∧
    (NewRelationalModelDefinition E name t).1.PrimaryKeys = [] ∧
    (NewRelationalModelDefinition E name t).1.belongsto = [] ∧
    (NewRelationalModelDefinition E name t).1.hasone = [] ∧
    (NewRelationalModelDefinition E name t).1.hasmany = [] ∧
    (NewRelationalModelDefinition E name t).1.many2many = [] := by
  have hfr := ParseOptions_frame E (newModel E name t)
  have hiff := ParseOptions_error_iff E (newModel E name t)
  have hn := (New_error_iff E name t).mp herr
  simp only [NewRelationalModelDefinition, RelationalModelDefinition.Parse] at herr ⊢
  rcases hx : (newModel E name t).ParseOptions E with ⟨rm1, err⟩
  rw [hx] at hfr hiff
  cases err with
  | some e =>
    obtain ⟨-, f2, f3, f4, f5, f6, f7⟩ := hfr
    exact ⟨f2, f3, f4, f5, f6, f7⟩
  | none =>
    exact absurd (hiff.mpr hn) (by simp)

/-- A successful compile of an object has recorded the stored fields of the sorted
member names, starting from the empty model. -/
theorem New_ok (E : Env) (name : String) (t : UserTypeDefinition)
    (members : List (String × AttributeDefinition))
    (ht : t.Definition.Type' = .Object members)
    (hok : (NewRelationalModelDefinition E name t).2 = none) :
    (NewRelationalModelDefinition E name t).1.Fields =
      (storedFields E t members (sortStrings (mapKeys members))).foldl
        (fun m p => mapAssign m p.1 p.2) [] ∧
    (NewRelationalModelDefinition E name t).1.PrimaryKeys =
      ((storedFields E t members (sortStrings (mapKeys members))).map Prod.snd).filter
        (fun f => f.PrimaryKey) ∧
    (NewRelationalModelDefinition E name t).1.belongsto =
      ((storedFields E t members (sortStrings (mapKeys members))).map
        fun p => p.2.BelongsTo).filter (fun s => decide (s ≠ "")) ∧
    (NewRelationalModelDefinition E name t).1.hasone =
      ((storedFields E t members (sortStrings (mapKeys members))).map
        fun p => p.2.HasOne).filter (fun s => decide (s ≠ "")) ∧
    (NewRelationalModelDefinition E name t).1.hasmany =
      ((storedFields E t members (sortStrings (mapKeys members))).map
        fun p => p.2.HasMany).filter (fun s => decide (s ≠ "")) ∧
    (NewRelationalModelDefinition E name t).1.many2many =
      ((storedFields E t members (sortStrings (mapKeys members))).map
        fun p => p.2.Many2Many).filter (fun s => decide (s ≠ "")) := by
  have hfr := ParseOptions_frame E (newModel E name t)
  simp only [NewRelationalModelDefinition, RelationalModelDefinition.Parse] at hok ⊢
  rcases hx : (newModel E name t).ParseOptions E with ⟨rm1, err⟩
  rw [hx] at hfr hok
  cases err with
  | some e => simp at hok
  | none =>
    obtain ⟨f1, f2, f3, f4, f5, f6, f7⟩ := hfr
    simp only at f1 f2 f3 f4 f5 f6 f7
    have hu : rm1.utd = t := f1
    have hm1 : rm1.utd.Definition.Type' = .Object members := by rw [hu]; exact ht
    simp only [ParseFields_object E rm1 members hm1]
    obtain ⟨-, g2, g3, g4, g5, g6, g7, -, -⟩ :=
      recordFields_proj (storedFields E rm1.utd members (sortStrings (mapKeys members))) rm1
    rw [g2, g3, g4, g5, g6, g7, f2, f3, f4, f5, f6, f7, hu]
    simp [newModel]

theorem storedFields_keys (E : Env) (utd : UserTypeDefinition)
    (actual : List (String × AttributeDefinition)) (keys : List String)
    (h : ∀ n ∈ keys, ∃ a, mapIndex actual n = some a) :
    mapKeys (storedFields E utd actual keys) = keys := by
  induction keys with
  | nil => rfl
  | cons n ks ih =>
    obtain ⟨a, ha⟩ := h n (List.mem_cons_self n ks)
    have := ih fun m hm => h m (List.mem_cons_of_mem n hm)
    simp only [storedFields, mapKeys] at this ⊢
    simp [List.filterMap_cons, ha, this]

theorem mem_storedFields (E : Env) (utd : UserTypeDefinition)
    (actual : List (String × AttributeDefinition)) (keys : List String) (n : String)
    (f : RelationalFieldDefinition) :
    (n, f) ∈ storedFields E utd actual keys ↔
      n ∈ keys ∧ ∃ a, mapIndex actual n = some a ∧ f = storedField E utd n a := by
  simp only [storedFields, List.mem_filterMap, Option.map_eq_some', Prod.mk.injEq]
  constructor
  · rintro ⟨k, hk, a, ha, rfl, rfl⟩
    exact ⟨hk, a, ha, rfl⟩
  · rintro ⟨hk, a, ha, rfl⟩
    exact ⟨n, hk, a, ha, rfl, rfl⟩

/-- The field map of a successfully compiled object: the stored fields of the
sorted member names, in that order. -/
theorem New_Fields (E : Env) (name : String) (t : UserTypeDefinition)
    (members : List (String × AttributeDefinition))
    (ht : t.Definition.Type' = .Object members) (hnd : (mapKeys members).Nodup)
    (hok : (NewRelationalModelDefinition E name t).2 = none) :
    (NewRelationalModelDefinition E name t).1.Fields =
      storedFields E t members (sortStrings (mapKeys members)) := by
  rw [(New_ok E name t members ht hok).1]
  have hk := storedFields_keys E t members (sortStrings (mapKeys members))
    (fun n hn => mapIndex_of_mem_mapKeys members n ((mem_sortStrings _ n).mp hn))
  have := foldl_mapAssign_fresh (storedFields E t members (sortStrings (mapKeys members))) []
    (by rw [List.nil_append, hk]; exact sortStrings_nodup _ hnd)
  simpa using this

/-- Indexing the field map of a successfully compiled object by a name gives the
stored field of the member of that name, and nothing for any other name. -/
theorem New_Fields_index (E : Env) (name : String) (t : UserTypeDefinition)
    (members : List (String × AttributeDefinition))
    (ht : t.Definition.Type' = .Object members) (hnd : (mapKeys members).Nodup)
    (hok : (NewRelationalModelDefinition E name t).2 = none) (n : String) :
    mapIndex (NewRelationalModelDefinition E name t).1.Fields n =
      (mapIndex members n).map (storedField E t n) := by
  rw [New_Fields E name t members ht hnd hok]
  have hk := storedFields_keys E t members (sortStrings (mapKeys members))
    (fun n hn => mapIndex_of_mem_mapKeys members n ((mem_sortStrings _ n).mp hn))
  have hnd2 : (mapKeys (storedFields E t members (sortStrings (mapKeys members)))).Nodup := by
    rw [hk]; exact sortStrings_nodup _ hnd
  apply Option.ext
  intro f
  rw [Option.mem_def, Option.mem_def, mapIndex_eq_some_iff _ hnd2, mem_storedFields,
    Option.map_eq_some']
  constructor
  · rintro ⟨-, a, ha, rfl⟩
    exact ⟨a, ha, rfl⟩
  · rintro ⟨a, ha, rfl⟩
    refine ⟨?_, a, ha, rfl⟩
    rw [mem_sortStrings]
    exact List.mem_map_of_mem Prod.fst (mapIndex_mem members n a ha)

theorem storedFields_filter (E : Env) (utd : UserTypeDefinition)
    (actual : List (String × AttributeDefinition)) (keys : List String)
    (P : RelationalFieldDefinition → Bool) :
    ((storedFields E utd actual keys).map Prod.snd).filter P =
      (keys.filter fun n =>
        match mapIndex actual n with
        | some a => P (storedField E utd n a)
        | none => false).filterMap
        fun n => (mapIndex actual n).map (storedField E utd n) := by
  induction keys with
  | nil => rfl
  | cons n ks ih =>
    have hs : storedFields E utd actual (n :: ks) =
        (match mapIndex actual n with
          | some a => [(n, storedField E utd n a)]
          | none => []) ++ storedFields E utd actual ks := by
      cases ha : mapIndex actual n <;> simp [storedFields, List.filterMap_cons, ha]
    rw [hs, List.map_append, List.filter_append, ih]
    cases ha : mapIndex actual n with
    | none => simp [List.filter_cons, ha]
    | some a =>
      by_cases hp : P (storedField E utd n a) = true
      · simp [List.filter_cons, ha, hp, List.filterMap_cons]
      · simp [List.filter_cons, ha, hp]

/-! ## C1 -/

/-- C1: for an object-typed aggregate that compiles, `PrimaryKeys` is read off a
strictly ascending list of member names: the names whose stored field has the
`PrimaryKey` flag, each once, in lexicographic order; the stored field of a member
is the field compiled for it. -/
theorem C1_primaryKeys_sorted_flagged (E : Env) (name : String) (t : UserTypeDefinition)
    (members : List (String × AttributeDefinition))
    (ht : t.Definition.Type' = .Object members) (hnd : (mapKeys members).Nodup)
    (hok : (NewRelationalModelDefinition E name t).2 = none) :
    ∃ names : List String,
      names.Sorted (fun a b => a < b) ∧
      (∀ n, n ∈ names ↔
        ∃ f, mapIndex (NewRelationalModelDefinition E name t).1.Fields n = some f ∧
          f.PrimaryKey = true) ∧
      (NewRelationalModelDefinition E name t).1.PrimaryKeys =
        names.filterMap (mapIndex (NewRelationalModelDefinition E name t).1.Fields) ∧
      (∀ n, mapIndex (NewRelationalModelDefinition E name t).1.Fields n =
        (mapIndex members n).map (storedField E t n)) := by
  have hidx := New_Fields_index E name t members ht hnd hok
  refine ⟨(sortStrings (mapKeys members)).filter fun n =>
      match mapIndex members n with
      | some a => (storedField E t n a).PrimaryKey
      | none => false, ?_, ?_, ?_, ?_⟩
  · exact (sortStrings_strict _ hnd).filter _
  · intro n
    rw [hidx n, List.mem_filter, mem_sortStrings]
    constructor
    · rintro ⟨hmem, hp⟩
      obtain ⟨a, ha⟩ := mapIndex_of_mem_mapKeys members n hmem
      rw [ha] at hp
      exact ⟨storedField E t n a, by simp [ha], hp⟩
    · rintro ⟨f, hf, hp⟩
      rw [Option.map_eq_some'] at hf
      obtain ⟨a, ha, rfl⟩ := hf
      refine ⟨List.mem_map_of_mem Prod.fst (mapIndex_mem members n a ha), ?_⟩
      rw [ha]
      exact hp
  · rw [(New_ok E name t members ht hok).2.1, storedFields_filter]
    apply List.filterMap_congr
    intro n _
    exact (hidx n).symm
  · exact hidx

/-! ## C2 -/

theorem fieldName_ne_iD (E : Env) (name : String) (hG : E.Goify name true ≠ "iD") :
    fieldName E name ≠ "iD" := by
  simp only [fieldName]
  split
  · intro h
    have hd := congrArg (fun s => s.data.reverse) h
    simp only [String.data_append, List.reverse_append] at hd
    have h2 : ("ID" : String).data.reverse = ['D', 'I'] := rfl
    have h3 : ("iD" : String).data.reverse = ['D', 'i'] := rfl
    rw [h2, h3] at hd
    simp at hd
  · exact hG

/-- C2, refuted as stated: when the compiled name is `iD`, one of the four casings of
the claim, and the member carries no primary-key key, the field is not a primary key.
`ParsePrimaryKey` compares the name with `ID`, `Id` and `id` only. The name `iD` is
reached here with a `Goify` that returns the name unchanged. -/
theorem C2_iD_not_primary_key :
    (NewRelationalFieldDefinition sampleUnchangedNameEnv "iD" (sampleMember "integer" [])).1.Name
      = "iD" ∧
    (NewRelationalFieldDefinition sampleUnchangedNameEnv "iD"
      (sampleMember "integer" [])).1.PrimaryKey = false ∧
    ¬ ((NewRelationalFieldDefinition sampleUnchangedNameEnv "iD"
        (sampleMember "integer" [])).1.PrimaryKey = true ↔
      (∃ gt, metaLookup (sampleMember "integer" []).Metadata
          sampleUnchangedNameEnv.MetaPrimaryKey = some gt ∧ Contains gt "primary_key" = true) ∨
        (NewRelationalFieldDefinition sampleUnchangedNameEnv "iD"
          (sampleMember "integer" [])).1.Name = "id" ∨
        (NewRelationalFieldDefinition sampleUnchangedNameEnv "iD"
          (sampleMember "integer" [])).1.Name = "Id" ∨
        (NewRelationalFieldDefinition sampleUnchangedNameEnv "iD"
          (sampleMember "integer" [])).1.Name = "iD" ∨
        (NewRelationalFieldDefinition sampleUnchangedNameEnv "iD"
          (sampleMember "integer" [])).1.Name = "ID") := by
  refine ⟨by decide, by decide, ?_⟩
  intro h
  have hpk := h.mpr (Or.inr (Or.inr (Or.inr (Or.inl (by decide)))))
  revert hpk
  decide

/-- C2, amended: the compiled field is a primary key exactly when the member carries
the primary-key key with a value containing `primary_key`, or its compiled name is
`ID`, `Id` or `id`; either alone suffices. -/
theorem C2_primaryKey_iff_tested_casings (E : Env) (name : String) (a : AttributeDefinition) :
    (NewRelationalFieldDefinition E name a).1.PrimaryKey = true ↔
      (∃ gt, metaLookup a.Metadata E.MetaPrimaryKey = some gt ∧
          Contains gt "primary_key" = true) ∨
        (NewRelationalFieldDefinition E name a).1.Name = "ID" ∨
        (NewRelationalFieldDefinition E name a).1.Name = "Id" ∨
        (NewRelationalFieldDefinition E name a).1.Name = "id" := by
  rw [NewRelationalFieldDefinition_eq]
  simp only [compiledField, Bool.or_eq_true, decide_eq_true_eq]
  cases metaLookup a.Metadata E.MetaPrimaryKey with
  | none =>
    simp only [Option.any_none, Bool.false_eq_true, false_or, reduceCtorEq, false_and,
      exists_false]
  | some gt =>
    simp only [Option.any_some, Option.some.injEq, exists_eq_left']

/-! ## C3, C4, C5 -/

/-- The compile of an object, step by step: the cache block, then the flag blocks,
then the stored fields of the sorted member names. -/
theorem New_object (E : Env) (name : String) (t : UserTypeDefinition)
    (members : List (String × AttributeDefinition))
    (ht : t.Definition.Type' = .Object members) :
    NewRelationalModelDefinition E name t =
      match RelationalModelDefinition.parseCacheBlock E (newModel E name t) with
      | (rm, some err) => (rm, some err)
      | (rm, none) =>
        (recordFields (RelationalModelDefinition.parseFlagBlocks E rm)
          (storedFields E t members (sortStrings (mapKeys members))), none) := by
  have hc := (parseCacheBlock_frame E (newModel E name t)).1
  simp only [NewRelationalModelDefinition, RelationalModelDefinition.Parse]
  rw [ParseOptions_object E (newModel E name t) members ht]
  rcases hx : RelationalModelDefinition.parseCacheBlock E (newModel E name t) with ⟨rm1, err⟩
  rw [hx] at hc
  cases err with
  | some e => rfl
  | none =>
    have hu : (RelationalModelDefinition.parseFlagBlocks E rm1).utd = t :=
      (parseFlagBlocks_frame E rm1).1.trans hc
    have hm : (RelationalModelDefinition.parseFlagBlocks E rm1).utd.Definition.Type' =
        .Object members := by rw [hu]; exact ht
    simp only [ParseFields_object E _ members hm, hu]

theorem storedFields_perm (E : Env) (m₁ m₂ : List (String × AttributeDefinition))
    (descr : String) (md : MetadataDefinition) (vals : List ValidationDefinition) (tn : String)
    (hp : m₁.Perm m₂) (hnd : (mapKeys m₁).Nodup) :
    storedFields E ⟨.mk (.Object m₁) descr md vals, tn⟩ m₁ (sortStrings (mapKeys m₁)) =
      storedFields E ⟨.mk (.Object m₂) descr md vals, tn⟩ m₂ (sortStrings (mapKeys m₂)) := by
  rw [sortStrings_eq_of_perm (mapKeys m₁) (mapKeys m₂) (hp.map Prod.fst)]
  simp only [storedFields]
  apply List.filterMap_congr
  intro n _
  rw [mapIndex_perm m₁ m₂ hp hnd n]
  rfl

/-- C3: two enumeration orders of the members of one aggregate compile to the same
field map, the same `PrimaryKeys` in the same order, the same four lists of
relationship names, and the same error. -/
theorem C3_enumeration_order_independent (E : Env) (name : String)
    (m₁ m₂ : List (String × AttributeDefinition)) (descr : String) (md : MetadataDefinition)
    (vals : List ValidationDefinition) (tn : String)
    (hp : m₁.Perm m₂) (hnd : (mapKeys m₁).Nodup) :
    (NewRelationalModelDefinition E name ⟨.mk (.Object m₁) descr md vals, tn⟩).1.Fields =
      (NewRelationalModelDefinition E name ⟨.mk (.Object m₂) descr md vals, tn⟩).1.Fields ∧
    (NewRelationalModelDefinition E name ⟨.mk (.Object m₁) descr md vals, tn⟩).1.PrimaryKeys =
      (NewRelationalModelDefinition E name ⟨.mk (.Object m₂) descr md vals, tn⟩).1.PrimaryKeys ∧
    (NewRelationalModelDefinition E name ⟨.mk (.Object m₁) descr md vals, tn⟩).1.belongsto =
      (NewRelationalModelDefinition E name ⟨.mk (.Object m₂) descr md vals, tn⟩).1.belongsto ∧
    (NewRelationalModelDefinition E name ⟨.mk (.Object m₁) descr md vals, tn⟩).1.hasone =
      (NewRelationalModelDefinition E name ⟨.mk (.Object m₂) descr md vals, tn⟩).1.hasone ∧
    (NewRelationalModelDefinition E name ⟨.mk (.Object m₁) descr md vals, tn⟩).1.hasmany =
      (NewRelationalModelDefinition E name ⟨.mk (.Object m₂) descr md vals, tn⟩).1.hasmany ∧
    (NewRelationalModelDefinition E name ⟨.mk (.Object m₁) descr md vals, tn⟩).1.many2many =
      (NewRelationalModelDefinition E name ⟨.mk (.Object m₂) descr md vals, tn⟩).1.many2many ∧
    (NewRelationalModelDefinition E name ⟨.mk (.Object m₁) descr md vals, tn⟩).2 =
      (NewRelationalModelDefinition E name ⟨.mk (.Object m₂) descr md vals, tn⟩).2 := by
  rw [New_object E name ⟨.mk (.Object m₁) descr md vals, tn⟩ m₁ rfl,
    New_object E name ⟨.mk (.Object m₂) descr md vals, tn⟩ m₂ rfl,
    storedFields_perm E m₁ m₂ descr md vals tn hp hnd]
  generalize storedFields E ⟨.mk (.Object m₂) descr md vals, tn⟩ m₂ (sortStrings (mapKeys m₂)) = l
  simp only [RelationalModelDefinition.parseCacheBlock, newModel, UserTypeDefinition.Metadata,
    AttributeDefinition.Metadata]
  cases metaLookup md E.MetaCached with
  | none =>
    simp only
    obtain ⟨-, a2, a3, a4, a5, a6, a7, -, -⟩ := recordFields_proj l
      (RelationalModelDefinition.parseFlagBlocks E (newModel E name ⟨.mk (.Object m₁) descr md vals, tn⟩))
    obtain ⟨-, b2, b3, b4, b5, b6, b7, -, -⟩ := recordFields_proj l
      (RelationalModelDefinition.parseFlagBlocks E (newModel E name ⟨.mk (.Object m₂) descr md vals, tn⟩))
    obtain ⟨-, c2, c3, c4, c5, c6, c7, -, -⟩ := parseFlagBlocks_frame E
      (newModel E name ⟨.mk (.Object m₁) descr md vals, tn⟩)
    obtain ⟨-, d2, d3, d4, d5, d6, d7, -, -⟩ := parseFlagBlocks_frame E
      (newModel E name ⟨.mk (.Object m₂) descr md vals, tn⟩)
    simp only [newModel] at a2 a3 a4 a5 a6 a7 b2 b3 b4 b5 b6 b7 c2 c3 c4 c5 c6 c7 d2 d3 d4 d5 d6 d7
    rw [a2, a3, a4, a5, a6, a7, b2, b3, b4, b5, b6, b7, c2, c3, c4, c5, c6, c7,
      d2, d3, d4, d5, d6, d7]
    simp only [and_self]
  | some val =>
    simp only
    cases Atoi val with
    | none => simp only [and_self]
    | some d =>
      simp only
      obtain ⟨-, a2, a3, a4, a5, a6, a7, -, -⟩ := recordFields_proj l
        (RelationalModelDefinition.parseFlagBlocks E
          { newModel E name ⟨.mk (.Object m₁) descr md vals, tn⟩ with
            Cached := true, CacheDuration := d })
      obtain ⟨-, b2, b3, b4, b5, b6, b7, -, -⟩ := recordFields_proj l
        (RelationalModelDefinition.parseFlagBlocks E
          { newModel E name ⟨.mk (.Object m₂) descr md vals, tn⟩ with
            Cached := true, CacheDuration := d })
      obtain ⟨-, c2, c3, c4, c5, c6, c7, -, -⟩ := parseFlagBlocks_frame E
        { newModel E name ⟨.mk (.Object m₁) descr md vals, tn⟩ with
          Cached := true, CacheDuration := d }
      obtain ⟨-, d2, d3, d4, d5, d6, d7, -, -⟩ := parseFlagBlocks_frame E
        { newModel E name ⟨.mk (.Object m₂) descr md vals, tn⟩ with
          Cached := true, CacheDuration := d }
      simp only [newModel] at a2 a3 a4 a5 a6 a7 b2 b3 b4 b5 b6 b7 c2 c3 c4 c5 c6 c7 d2 d3 d4 d5 d6 d7
      rw [a2, a3, a4, a5, a6, a7, b2, b3, b4, b5, b6, b7, c2, c3, c4, c5, c6, c7,
        d2, d3, d4, d5, d6, d7]
      simp only [and_self]

/-- C3, run on two enumeration orders of the members of `User`. -/
theorem C3_enumeration_order_independent_witness :
    sampleUserMembers.Perm sampleUserMembersSwapped ∧ (mapKeys sampleUserMembers).Nodup ∧
    (NewRelationalModelDefinition sampleEnv "User"
        ⟨.mk (.Object sampleUserMembers) "" [] [], "User"⟩).1.PrimaryKeys =
      (NewRelationalModelDefinition sampleEnv "User"
        ⟨.mk (.Object sampleUserMembersSwapped) "" [] [], "User"⟩).1.PrimaryKeys :=
  ⟨List.Perm.swap _ _ _, by decide,
    (C3_enumeration_order_independent sampleEnv "User" sampleUserMembers
      sampleUserMembersSwapped "" [] [] "User" (List.Perm.swap _ _ _) (by decide)).2.1⟩

/-- C4: on an object-typed aggregate, a cache value that `Atoi` rejects makes the
compile return the cache-duration error; a cache value that parses makes
`ParseOptions` and the compile succeed with `Cached = true` and `CacheDuration` the
parsed integer; without the cache key `Cached` is false and `CacheDuration` is 0. -/
theorem C4_cache_duration (E : Env) (name : String) (t : UserTypeDefinition)
    (members : List (String × AttributeDefinition))
    (ht : t.Definition.Type' = .Object members) :
    (∀ val, metaLookup t.Metadata E.MetaCached = some val → Atoi val = none →
      (NewRelationalModelDefinition E name t).2 =
        some "Cache duration must be a string that can be parsed as an integer") ∧
    (∀ val d, metaLookup t.Metadata E.MetaCached = some val → Atoi val = some d →
      ((newModel E name t).ParseOptions E).2 = none ∧
      ((newModel E name t).ParseOptions E).1.Cached = true ∧
      ((newModel E name t).ParseOptions E).1.CacheDuration = d ∧
      (NewRelationalModelDefinition E name t).2 = none ∧
      (NewRelationalModelDefinition E name t).1.Cached = true ∧
      (NewRelationalModelDefinition E name t).1.CacheDuration = d) ∧
    (metaLookup t.Metadata E.MetaCached = none →
      (NewRelationalModelDefinition E name t).2 = none ∧
      (NewRelationalModelDefinition E name t).1.Cached = false ∧
      (NewRelationalModelDefinition E name t).1.CacheDuration = 0) := by
  have hN := New_object E name t members ht
  have hP := ParseOptions_object E (newModel E name t) members ht
  refine ⟨?_, ?_, ?_⟩
  · intro val hv ha
    rw [hN, parseCacheBlock_rejected E (newModel E name t) val hv ha]
  · intro val d hv ha
    rw [hN, hP, parseCacheBlock_parsed E (newModel E name t) val d hv ha]
    simp only
    obtain ⟨-, -, -, -, -, -, -, f8, f9⟩ := parseFlagBlocks_frame E
      { newModel E name t with Cached := true, CacheDuration := d }
    obtain ⟨-, -, -, -, -, -, -, g8, g9⟩ := recordFields_proj
      (storedFields E t members (sortStrings (mapKeys members)))
      (RelationalModelDefinition.parseFlagBlocks E
        { newModel E name t with Cached := true, CacheDuration := d })
    exact ⟨trivial, f8, f9, trivial, g8.trans f8, g9.trans f9⟩
  · intro hv
    rw [hN, parseCacheBlock_absent E (newModel E name t) hv]
    simp only
    obtain ⟨-, -, -, -, -, -, -, f8, f9⟩ := parseFlagBlocks_frame E (newModel E name t)
    obtain ⟨-, -, -, -, -, -, -, g8, g9⟩ := recordFields_proj
      (storedFields E t members (sortStrings (mapKeys members)))
      (RelationalModelDefinition.parseFlagBlocks E (newModel E name t))
    exact ⟨trivial, g8.trans f8, g9.trans f9⟩

/-- C4, run on the `User` aggregate with cache value `300`. -/
theorem C4_cache_duration_witness :
    sampleCachedUser.Definition.Type' = .Object sampleUserMembers ∧
    (NewRelationalModelDefinition sampleEnv "User" sampleCachedUser).2 = none ∧
    (NewRelationalModelDefinition sampleEnv "User" sampleCachedUser).1.Cached = true ∧
    (NewRelationalModelDefinition sampleEnv "User" sampleCachedUser).1.CacheDuration = 300 :=
  ⟨rfl,
    ((C4_cache_duration sampleEnv "User" sampleCachedUser sampleUserMembers rfl).2.1
      "300" 300 (by decide) (by decide)).2.2.2⟩

/-- The cache value `abc` of the spec's boundary case makes the compile fail. -/
theorem cache_abc_fails :
    (NewRelationalModelDefinition sampleEnv "User" sampleBadCacheUser).2 =
      some "Cache duration must be a string that can be parsed as an integer" := by
  decide

/-- C5: the compile returns an error exactly when the aggregate's type is not an
object or the cache key is present with a value that does not parse as an integer;
the field compiler and each of its nine steps return no error for any member. -/
theorem C5_error_iff (E : Env) (name : String) (t : UserTypeDefinition) :
    ((NewRelationalModelDefinition E name t).2 ≠ none ↔
      (∀ members, t.Definition.Type' ≠ .Object members) ∨
      ∃ val, metaLookup t.Metadata E.MetaCached = some val ∧ Atoi val = none) ∧
    (∀ n a, (NewRelationalFieldDefinition E n a).2 = none) ∧
    (∀ f : RelationalFieldDefinition,
      (f.Parse E).2 = none ∧ (f.ParsePrimaryKey E).2 = none ∧ (f.ParseSQLTag E).2 = none ∧
      (f.ParseTimestamps E).2 = none ∧ (f.ParseAlias E).2 = none ∧
      (f.ParseBelongsTo E).2 = none ∧ (f.ParseHasOne E).2 = none ∧
      (f.ParseHasMany E).2 = none ∧ (f.ParseManyToMany E).2 = none ∧
      f.ParseDescription.2 = none) := by
  refine ⟨New_error_iff E name t, NewRelationalFieldDefinition_no_error E, ?_⟩
  intro f
  refine ⟨?_, ?_, ?_, ?_, ?_, ?_, ?_, ?_, ?_, ?_⟩
  · simp only [RelationalFieldDefinition.Parse, ParsePrimaryKey_eq, ParseSQLTag_eq,
      ParseTimestamps_eq, ParseAlias_eq, ParseBelongsTo_eq, ParseHasOne_eq, ParseHasMany_eq,
      ParseManyToMany_eq, ParseDescription_eq]
  · rw [ParsePrimaryKey_eq]
  · rw [ParseSQLTag_eq]
  · rw [ParseTimestamps_eq]
  · rw [ParseAlias_eq]
  · rw [ParseBelongsTo_eq]
  · rw [ParseHasOne_eq]
  · rw [ParseHasMany_eq]
  · rw [ParseManyToMany_eq]
  · rw [ParseDescription_eq]

/-- C1, run on the `User` aggregate of the spec's scenario. -/
theorem C1_primaryKeys_sorted_flagged_witness :
    sampleUser.Definition.Type' = .Object sampleUserMembers ∧
    (mapKeys sampleUserMembers).Nodup ∧
    (NewRelationalModelDefinition sampleEnv "User" sampleUser).2 = none ∧
    ∃ names : List String,
      names.Sorted (fun a b => a < b) ∧
      (∀ n, n ∈ names ↔
        ∃ f, mapIndex (NewRelationalModelDefinition sampleEnv "User" sampleUser).1.Fields n =
            some f ∧ f.PrimaryKey = true) ∧
      (NewRelationalModelDefinition sampleEnv "User" sampleUser).1.PrimaryKeys =
        names.filterMap (mapIndex (NewRelationalModelDefinition sampleEnv "User" sampleUser).1.Fields) ∧
      (∀ n, mapIndex (NewRelationalModelDefinition sampleEnv "User" sampleUser).1.Fields n =
        (mapIndex sampleUserMembers n).map (storedField sampleEnv sampleUser n)) :=
  ⟨rfl, by decide, by decide,
    C1_primaryKeys_sorted_flagged sampleEnv "User" sampleUser sampleUserMembers rfl
      (by decide) (by decide)⟩

/-! ## C6, C7: relationships -/

/-- The stored field is the compiled field with `Nullable` cleared for a required member. -/
theorem storedField_eq (E : Env) (utd : UserTypeDefinition) (name : String)
    (a : AttributeDefinition) :
    storedField E utd name a =
      { compiledField E name a with
        Nullable := (compiledField E name a).Nullable && !utd.IsRequired name } := by
  simp only [storedField, NewRelationalFieldDefinition_eq]
  cases utd.IsRequired name <;> simp

theorem compiledField_value (E : Env) (name : String) (a : AttributeDefinition)
    (k : RelationshipKind) :
    k.value (compiledField E name a) = (metaLookup a.Metadata (k.key E)).getD "" := by
  cases k <;> rfl

theorem storedField_value (E : Env) (utd : UserTypeDefinition) (name : String)
    (a : AttributeDefinition) (k : RelationshipKind) :
    k.value (storedField E utd name a) = (metaLookup a.Metadata (k.key E)).getD "" := by
  rw [storedField_eq]
  cases k <;> rfl

/-- C6, refuted as stated: a member that carries the belongs-to and the has-one key
gets both attributes, so the compiled field holds two relationships. -/
theorem C6_two_relationships :
    ¬ relationshipCount (NewRelationalFieldDefinition sampleEnv "owner" sampleTwoRelations).1 ≤ 1 := by
  decide

/-- C6, amended: each relationship attribute of the compiled field is non-empty
exactly when the member carries the key of its kind with a non-empty value, so the
field holds as many relationships as the member carries such keys. -/
theorem C6_relationships_as_carried (E : Env) (name : String) (a : AttributeDefinition) :
    (∀ k : RelationshipKind,
      k.value (NewRelationalFieldDefinition E name a).1 ≠ "" ↔
        carriesNonEmpty a (k.key E) = true) ∧
    relationshipCount (NewRelationalFieldDefinition E name a).1 = carriedRelationships E a := by
  have hk : ∀ k : RelationshipKind,
      k.value (compiledField E name a) ≠ "" ↔ carriesNonEmpty a (k.key E) = true := by
    intro k
    rw [compiledField_value]
    simp only [carriesNonEmpty]
    cases metaLookup a.Metadata (k.key E) <;> simp
  rw [NewRelationalFieldDefinition_eq]
  refine ⟨hk, ?_⟩
  have h1 := hk .belongsTo
  have h2 := hk .hasOne
  have h3 := hk .hasMany
  have h4 := hk .manyToMany
  simp only [RelationshipKind.value, RelationshipKind.key] at h1 h2 h3 h4
  simp only [relationshipCount, carriedRelationships, h1, h2, h3, h4]

theorem New_names (E : Env) (name : String) (t : UserTypeDefinition)
    (members : List (String × AttributeDefinition))
    (ht : t.Definition.Type' = .Object members)
    (hok : (NewRelationalModelDefinition E name t).2 = none) (k : RelationshipKind) :
    k.names (NewRelationalModelDefinition E name t).1 =
      ((storedFields E t members (sortStrings (mapKeys members))).map
        fun p => k.value p.2).filter (fun s => decide (s ≠ "")) := by
  obtain ⟨-, -, h3, h4, h5, h6⟩ := New_ok E name t members ht hok
  cases k
  · exact h3
  · exact h4
  · exact h5
  · exact h6

/-- C7, refuted as stated: the member `owner` carries the belongs-to key with the
empty string as its value, the aggregate compiles, and the belongs-to names do not
contain the empty string. -/
theorem C7_empty_name_not_collected :
    (NewRelationalModelDefinition sampleEnv "Post" sampleEmptyBelongsTo).2 = none ∧
    ¬ ("" ∈ (NewRelationalModelDefinition sampleEnv "Post" sampleEmptyBelongsTo).1.belongsto ↔
      ∃ n a, mapIndex [("owner", sampleMember "integer" [("#belongsto", "")])] n = some a ∧
        metaLookup a.Metadata sampleEnv.MetaBelongsTo = some "") := by
  refine ⟨by decide, ?_⟩
  intro h
  have hmem := h.mpr ⟨"owner", sampleMember "integer" [("#belongsto", "")], rfl, by decide⟩
  revert hmem
  decide

/-- C7, amended: in a successfully compiled model and for each relationship kind, a
member that carries the kind's key with value `v` has a field whose attribute of
that kind is `v`, and the model's list of that kind contains a name exactly when
the name is non-empty and some member carries the kind's key with that name as its
value. -/
theorem C7_relationship_names (E : Env) (name : String) (t : UserTypeDefinition)
    (members : List (String × AttributeDefinition))
    (ht : t.Definition.Type' = .Object members) (hnd : (mapKeys members).Nodup)
    (hok : (NewRelationalModelDefinition E name t).2 = none) (k : RelationshipKind) :
    (∀ n a v, mapIndex members n = some a → metaLookup a.Metadata (k.key E) = some v →
      ∃ f, mapIndex (NewRelationalModelDefinition E name t).1.Fields n = some f ∧
        k.value f = v) ∧
    (∀ v, v ∈ k.names (NewRelationalModelDefinition E name t).1 ↔
      v ≠ "" ∧ ∃ n a, mapIndex members n = some a ∧
        metaLookup a.Metadata (k.key E) = some v) := by
  refine ⟨?_, ?_⟩
  · intro n a v ha hv
    refine ⟨storedField E t n a, ?_, ?_⟩
    · rw [New_Fields_index E name t members ht hnd hok n, ha]
      rfl
    · rw [storedField_value, hv]
      rfl
  · intro v
    rw [New_names E name t members ht hok k]
    simp only [List.mem_filter, List.mem_map, decide_eq_true_eq, Prod.exists]
    constructor
    · rintro ⟨⟨n, f, hmem, hval⟩, hne⟩
      obtain ⟨-, a, ha, rfl⟩ := (mem_storedFields E t members _ n f).mp hmem
      refine ⟨hne, n, a, ha, ?_⟩
      rw [storedField_value] at hval
      cases hl : metaLookup a.Metadata (k.key E) with
      | none =>
        rw [hl] at hval
        exact absurd hval.symm hne
      | some w =>
        rw [hl] at hval
        exact congrArg some hval
    · rintro ⟨hne, n, a, ha, hv⟩
      refine ⟨⟨n, storedField E t n a, ?_, ?_⟩, hne⟩
      · rw [mem_storedFields]
        refine ⟨?_, a, ha, rfl⟩
        rw [mem_sortStrings]
        exact List.mem_map_of_mem Prod.fst (mapIndex_mem members n a ha)
      · rw [storedField_value, hv]
        rfl

/-- C7 amended, run on the `Post` aggregate of the spec's scenario: `authorId`
belongs to `User`, and the belongs-to names are exactly `User`. -/
theorem C7_relationship_names_witness :
    samplePost.Definition.Type' =
      .Object [("authorId", sampleMember "integer" [("#belongsto", "User")])] ∧
    (mapKeys [("authorId", sampleMember "integer" [("#belongsto", "User")])]).Nodup ∧
    (NewRelationalModelDefinition sampleEnv "Post" samplePost).2 = none ∧
    (∃ f, mapIndex (NewRelationalModelDefinition sampleEnv "Post" samplePost).1.Fields
        "authorId" = some f ∧ f.BelongsTo = "User") ∧
    (NewRelationalModelDefinition sampleEnv "Post" samplePost).1.belongsto = ["User"] :=
  ⟨rfl, by decide, by decide,
    (C7_relationship_names sampleEnv "Post" samplePost
      [("authorId", sampleMember "integer" [("#belongsto", "User")])] rfl (by decide)
      (by decide) .belongsTo).1 "authorId" (sampleMember "integer" [("#belongsto", "User")])
      "User" rfl (by decide),
    by decide⟩

/-! ## C8, C9: nullability -/

theorem storedField_Nullable (E : Env) (utd : UserTypeDefinition) (name : String)
    (a : AttributeDefinition) :
    (storedField E utd name a).Nullable =
      (carries a E.MetaTimestampDeleted && !utd.IsRequired name) := by
  rw [storedField_eq]
  rfl

/-- C8, refuted as stated: the member `id` of `User` carries no timestamp key and is
not required, and its stored field has `Nullable = false`. -/
theorem C8_not_required_not_nullable :
    (NewRelationalModelDefinition sampleEnv "User" sampleUser).2 = none ∧
    sampleUser.IsRequired "id" = false ∧
    carries (sampleMember "integer" []) sampleEnv.MetaTimestampCreated = false ∧
    carries (sampleMember "integer" []) sampleEnv.MetaTimestampUpdated = false ∧
    carries (sampleMember "integer" []) sampleEnv.MetaTimestampDeleted = false ∧
    (mapIndex (NewRelationalModelDefinition sampleEnv "User" sampleUser).1.Fields "id").map
      (fun f => f.Nullable) = some false := by
  decide

/-- C8, amended: in a successfully compiled model, the stored field of a member that
carries no created, updated or deleted timestamp key has `Nullable = false`, whether
the aggregate requires the member or not. -/
theorem C8_plain_member_not_nullable (E : Env) (name : String) (t : UserTypeDefinition)
    (members : List (String × AttributeDefinition))
    (ht : t.Definition.Type' = .Object members) (hnd : (mapKeys members).Nodup)
    (hok : (NewRelationalModelDefinition E name t).2 = none)
    (n : String) (a : AttributeDefinition) (ha : mapIndex members n = some a)
    (_hc : carries a E.MetaTimestampCreated = false)
    (_hu : carries a E.MetaTimestampUpdated = false)
    (hd : carries a E.MetaTimestampDeleted = false) :
    ∃ f, mapIndex (NewRelationalModelDefinition E name t).1.Fields n = some f ∧
      f.Nullable = false := by
  refine ⟨storedField E t n a, ?_, ?_⟩
  · rw [New_Fields_index E name t members ht hnd hok n, ha]
    rfl
  · rw [storedField_Nullable, hd]
    rfl

/-- C8 amended, run on the member `email` of `User`. -/
theorem C8_plain_member_not_nullable_witness :
    sampleUser.Definition.Type' = .Object sampleUserMembers ∧
    (mapKeys sampleUserMembers).Nodup ∧
    (NewRelationalModelDefinition sampleEnv "User" sampleUser).2 = none ∧
    mapIndex sampleUserMembers "email" = some (sampleMember "string" []) ∧
    carries (sampleMember "string" []) sampleEnv.MetaTimestampCreated = false ∧
    carries (sampleMember "string" []) sampleEnv.MetaTimestampUpdated = false ∧
    carries (sampleMember "string" []) sampleEnv.MetaTimestampDeleted = false ∧
    ∃ f, mapIndex (NewRelationalModelDefinition sampleEnv "User" sampleUser).1.Fields "email" =
        some f ∧ f.Nullable = false :=
  ⟨rfl, by decide, by decide, rfl, by decide, by decide, by decide,
    C8_plain_member_not_nullable sampleEnv "User" sampleUser sampleUserMembers rfl (by decide)
      (by decide) "email" (sampleMember "string" []) rfl (by decide) (by decide) (by decide)⟩

/-- C9: in a successfully compiled model, the stored field of a member that the
aggregate requires has `Nullable = false`, whatever the field compiler computed. -/
theorem C9_required_not_nullable (E : Env) (name : String) (t : UserTypeDefinition)
    (members : List (String × AttributeDefinition))
    (ht : t.Definition.Type' = .Object members) (hnd : (mapKeys members).Nodup)
    (hok : (NewRelationalModelDefinition E name t).2 = none)
    (n : String) (a : AttributeDefinition) (ha : mapIndex members n = some a)
    (hr : t.IsRequired n = true) :
    ∃ f, mapIndex (NewRelationalModelDefinition E name t).1.Fields n = some f ∧
      f.Nullable = false := by
  refine ⟨storedField E t n a, ?_, ?_⟩
  · rw [New_Fields_index E name t members ht hnd hok n, ha]
    rfl
  · rw [storedField_Nullable, hr]
    simp

/-- C9, run on a required member that carries the deleted-timestamp key: the field
compiler alone gives `Nullable = true`, the stored field has `Nullable = false`. -/
theorem C9_required_not_nullable_witness :
    sampleRequiredDeleted.Definition.Type' = .Object sampleUserMembers ∧
    (mapKeys sampleUserMembers).Nodup ∧
    (NewRelationalModelDefinition sampleEnv "User" sampleRequiredDeleted).2 = none ∧
    mapIndex sampleUserMembers "deletedAt" =
      some (sampleMember "string" [("#timestampdeleted", "")]) ∧
    sampleRequiredDeleted.IsRequired "deletedAt" = true ∧
    (NewRelationalFieldDefinition sampleEnv "deletedAt"
      (sampleMember "string" [("#timestampdeleted", "")])).1.Nullable = true ∧
    ∃ f, mapIndex (NewRelationalModelDefinition sampleEnv "User" sampleRequiredDeleted).1.Fields
        "deletedAt" = some f ∧ f.Nullable = false :=
  ⟨rfl, by decide, by decide, rfl, by decide, by decide,
    C9_required_not_nullable sampleEnv "User" sampleRequiredDeleted sampleUserMembers rfl
      (by decide) (by decide) "deletedAt" (sampleMember "string" [("#timestampdeleted", "")])
      rfl (by decide)⟩

/-! ## C10: the column alias -/

/-- C10: a member that carries the alias key compiles to a field with
`Aliased = true` and `DatabaseFieldName` the value of the key; a member that does
not compiles to a field with `Aliased = false` and `DatabaseFieldName` equal to
its `Name`. -/
theorem C10_alias (E : Env) (name : String) (a : AttributeDefinition) :
    (∀ v, metaLookup a.Metadata E.MetaGormTag = some v →
      (NewRelationalFieldDefinition E name a).1.Aliased = true ∧
      (NewRelationalFieldDefinition E name a).1.DatabaseFieldName = v) ∧
    (metaLookup a.Metadata E.MetaGormTag = none →
      (NewRelationalFieldDefinition E name a).1.Aliased = false ∧
      (NewRelationalFieldDefinition E name a).1.DatabaseFieldName =
        (NewRelationalFieldDefinition E name a).1.Name) := by
  rw [NewRelationalFieldDefinition_eq]
  simp only [compiledField]
  refine ⟨?_, ?_⟩
  · intro v hv
    rw [hv]
    exact ⟨rfl, rfl⟩
  · intro hv
    rw [hv]
    exact ⟨rfl, rfl⟩

/-! ## C11, C12: names and implicit primary keys -/

theorem NewRelationalFieldDefinition_Name (E : Env) (name : String) (a : AttributeDefinition) :
    (NewRelationalFieldDefinition E name a).1.Name = fieldName E name := by
  rw [NewRelationalFieldDefinition_eq]
  rfl

theorem HasSuffix_iff (s suffix : String) :
    HasSuffix s suffix = true ↔ suffix.data <:+ s.data := by
  simp [HasSuffix]

theorem not_Id_suffix_of_ID (x : List Char) : ¬ ("Id" : String).data <:+ x ++ ("ID" : String).data := by
  rintro ⟨t, ht⟩
  have hr := congrArg List.reverse ht
  have h1 : ("Id" : String).data = ['I', 'd'] := rfl
  have h2 : ("ID" : String).data = ['I', 'D'] := rfl
  rw [h1, h2] at hr
  simp at hr

/-- C11, refuted as stated: the member name `userid` ends in `id`, `Goify` only
upper-cases its first letter, and the compiled name `Userid` does not end in `ID`. -/
theorem C11_lower_case_id_kept :
    HasSuffix sampleLowerIdName "id" = true ∧
    (NewRelationalFieldDefinition sampleEnv sampleLowerIdName (sampleMember "integer" [])).1.Name
      = "Userid" ∧
    HasSuffix (NewRelationalFieldDefinition sampleEnv sampleLowerIdName
      (sampleMember "integer" [])).1.Name "ID" = false := by
  decide

/-- C11, amended: the name of a compiled field never ends in the mixed-case `Id`, and
it ends in `ID` whenever the name that `Goify` returns ends in `Id` or in `ID`. -/
theorem C11_Id_suffix_rewritten (E : Env) (name : String) (a : AttributeDefinition) :
    HasSuffix (NewRelationalFieldDefinition E name a).1.Name "Id" = false ∧
    (HasSuffix (E.Goify name true) "Id" = true ∨ HasSuffix (E.Goify name true) "ID" = true →
      HasSuffix (NewRelationalFieldDefinition E name a).1.Name "ID" = true) := by
  rw [NewRelationalFieldDefinition_Name]
  simp only [fieldName]
  by_cases hs : HasSuffix (E.Goify name true) "Id" = true
  · simp only [hs, if_true]
    refine ⟨?_, fun _ => ?_⟩
    · rw [Bool.eq_false_iff]
      intro h
      rw [HasSuffix_iff, String.data_append] at h
      exact not_Id_suffix_of_ID _ h
    · rw [HasSuffix_iff, String.data_append]
      exact List.suffix_append _ _
  · simp only [hs, if_false]
    refine ⟨by simpa using hs, ?_⟩
    rintro (h | h)
    · simp at h
    · exact h

/-- C12: an object-typed aggregate that compiles and has a member whose compiled name
is `ID` has at least one primary key, with or without a primary-key key. -/
theorem C12_id_member_gives_primary_key (E : Env) (name : String) (t : UserTypeDefinition)
    (members : List (String × AttributeDefinition))
    (ht : t.Definition.Type' = .Object members)
    (hok : (NewRelationalModelDefinition E name t).2 = none)
    (n : String) (a : AttributeDefinition) (ha : mapIndex members n = some a)
    (hid : (NewRelationalFieldDefinition E n a).1.Name = "ID") :
    1 ≤ (NewRelationalModelDefinition E name t).1.PrimaryKeys.length := by
  rw [NewRelationalFieldDefinition_Name] at hid
  rw [(New_ok E name t members ht hok).2.1]
  have hmem : (n, storedField E t n a) ∈
      storedFields E t members (sortStrings (mapKeys members)) := by
    rw [mem_storedFields]
    refine ⟨?_, a, ha, rfl⟩
    rw [mem_sortStrings]
    exact List.mem_map_of_mem Prod.fst (mapIndex_mem members n a ha)
  have hpk : (storedField E t n a).PrimaryKey = true := by
    rw [storedField_eq]
    simp [compiledField, hid]
  have hin : storedField E t n a ∈
      ((storedFields E t members (sortStrings (mapKeys members))).map Prod.snd).filter
        (fun f => f.PrimaryKey) := by
    rw [List.mem_filter]
    exact ⟨List.mem_map_of_mem Prod.snd hmem, hpk⟩
  exact List.length_pos_of_mem hin

/-- C12, run on the `User` aggregate: `id` compiles to `ID` and carries no metadata. -/
theorem C12_id_member_gives_primary_key_witness :
    sampleUser.Definition.Type' = .Object sampleUserMembers ∧
    (NewRelationalModelDefinition sampleEnv "User" sampleUser).2 = none ∧
    mapIndex sampleUserMembers "id" = some (sampleMember "integer" []) ∧
    (NewRelationalFieldDefinition sampleEnv "id" (sampleMember "integer" [])).1.Name = "ID" ∧
    1 ≤ (NewRelationalModelDefinition sampleEnv "User" sampleUser).1.PrimaryKeys.length :=
  ⟨rfl, by decide, rfl, by decide,
    C12_id_member_gives_primary_key sampleEnv "User" sampleUser sampleUserMembers rfl
      (by decide) "id" (sampleMember "integer" []) rfl (by decide)⟩

/-! ## C16, C17: timestamps -/

/-- C16: the compiled field is a timestamp exactly when the member carries the
created, the updated or the deleted key; a timestamp has datatype `time.Time`, any
other field the native type of the member's declared type. -/
theorem C16_timestamp_datatype (E : Env) (name : String) (a : AttributeDefinition) :
    ((NewRelationalFieldDefinition E name a).1.Timestamp = true ↔
      carries a E.MetaTimestampCreated = true ∨ carries a E.MetaTimestampUpdated = true ∨
        carries a E.MetaTimestampDeleted = true) ∧
    ((NewRelationalFieldDefinition E name a).1.Timestamp = true →
      (NewRelationalFieldDefinition E name a).1.Datatype = "time.Time") ∧
    ((NewRelationalFieldDefinition E name a).1.Timestamp = false →
      (NewRelationalFieldDefinition E name a).1.Datatype =
        E.GoNativeType a.Definition.Type') := by
  rw [NewRelationalFieldDefinition_eq]
  simp only [compiledField, carries, AttributeDefinition.Definition]
  cases (metaLookup a.Metadata E.MetaTimestampCreated).isSome <;>
  cases (metaLookup a.Metadata E.MetaTimestampUpdated).isSome <;>
  cases (metaLookup a.Metadata E.MetaTimestampDeleted).isSome <;>
  simp

/-- C17: the compiled field is nullable exactly when the member carries the deleted
key, whatever other timestamp keys it carries; with only the created or the updated
key it is not nullable. `ParseTimestamps` applies the three keys in the order
created, updated, deleted, so the deleted key overrides the other two. -/
theorem C17_nullable_iff_deleted (E : Env) (name : String) (a : AttributeDefinition) :
    ((NewRelationalFieldDefinition E name a).1.Nullable = true ↔
      carries a E.MetaTimestampDeleted = true) ∧
    (carries a E.MetaTimestampDeleted = false →
      (carries a E.MetaTimestampCreated = true ∨ carries a E.MetaTimestampUpdated = true) →
      (NewRelationalFieldDefinition E name a).1.Nullable = false ∧
      (NewRelationalFieldDefinition E name a).1.Timestamp = true) ∧
    (∀ f : RelationalFieldDefinition,
      (f.ParseTimestamps E).1.Nullable =
        (carries f.a E.MetaTimestampDeleted ||
          (f.Nullable && !carries f.a E.MetaTimestampCreated &&
            !carries f.a E.MetaTimestampUpdated))) := by
  refine ⟨?_, ?_, fun f => by rw [ParseTimestamps_eq]; rfl⟩ <;>
  rw [NewRelationalFieldDefinition_eq] <;>
  simp only [compiledField, carries]
  cases (metaLookup a.Metadata E.MetaTimestampCreated).isSome <;>
  cases (metaLookup a.Metadata E.MetaTimestampUpdated).isSome <;>
  cases (metaLookup a.Metadata E.MetaTimestampDeleted).isSome <;>
  simp

/-! ## C15: what a failed compile returns -/

/-- C15, refuted as stated: with the cache value `abc` the compile returns an error
together with the model it was building, which has `Cached = true`, no duration and
no fields. -/
theorem C15_failed_compile_returns_model :
    (NewRelationalModelDefinition sampleEnv "User" sampleBadCacheUser).2 ≠ none ∧
    (NewRelationalModelDefinition sampleEnv "User" sampleBadCacheUser).1.Cached = true ∧
    (NewRelationalModelDefinition sampleEnv "User" sampleBadCacheUser).1.CacheDuration = 0 ∧
    (NewRelationalModelDefinition sampleEnv "User" sampleBadCacheUser).1.Fields.length = 0 := by
  decide

/-- C15, amended: a failed compile returns, next to the error, the model as `Parse`
left it: the freshly initialised model when the aggregate is not an object, and that
model with `Cached = true` when the cache value does not parse; in both cases without
fields. -/
theorem C15_failed_compile_model (E : Env) (name : String) (t : UserTypeDefinition)
    (herr : (NewRelationalModelDefinition E name t).2 ≠ none) :
    ((∀ members, t.Definition.Type' ≠ .Object members) ∧
      (NewRelationalModelDefinition E name t).1 = newModel E name t) ∨
    (∃ val, metaLookup t.Metadata E.MetaCached = some val ∧ Atoi val = none ∧
      (NewRelationalModelDefinition E name t).1 = { newModel E name t with Cached := true }) := by
  by_cases hobj : ∃ members, t.Definition.Type' = .Object members
  · obtain ⟨members, ht⟩ := hobj
    rcases (New_error_iff E name t).mp herr with h | ⟨val, hv, ha⟩
    · exact absurd ht (h members)
    · refine Or.inr ⟨val, hv, ha, ?_⟩
      rw [New_object E name t members ht,
        parseCacheBlock_rejected E (newModel E name t) val hv ha]
  · have hno : ∀ members, t.Definition.Type' ≠ .Object members :=
      fun m hm => hobj ⟨m, hm⟩
    refine Or.inl ⟨hno, ?_⟩
    simp only [NewRelationalModelDefinition, RelationalModelDefinition.Parse]
    rw [ParseOptions_not_object E (newModel E name t) hno]

/-- C15 amended, run on the `User` aggregate with the cache value `abc`. -/
theorem C15_failed_compile_model_witness :
    (NewRelationalModelDefinition sampleEnv "User" sampleBadCacheUser).2 ≠ none ∧
    (((∀ members, sampleBadCacheUser.Definition.Type' ≠ .Object members) ∧
      (NewRelationalModelDefinition sampleEnv "User" sampleBadCacheUser).1 =
        newModel sampleEnv "User" sampleBadCacheUser) ∨
    (∃ val, metaLookup sampleBadCacheUser.Metadata sampleEnv.MetaCached = some val ∧
      Atoi val = none ∧
      (NewRelationalModelDefinition sampleEnv "User" sampleBadCacheUser).1 =
        { newModel sampleEnv "User" sampleBadCacheUser with Cached := true })) :=
  ⟨by decide, C15_failed_compile_model sampleEnv "User" sampleBadCacheUser (by decide)⟩

/-! ## C14: the where clause -/

theorem PKWhere_eq (rm : RelationalModelDefinition) :
    rm.PKWhere = Join (rm.PrimaryKeys.map fun pk => pk.DatabaseFieldName ++ " = ?") "and" := by
  have h : ∀ (l : List RelationalFieldDefinition) (acc : List String),
      l.foldl (fun pkwhere pk => pkwhere ++ [pk.DatabaseFieldName ++ " = ?"]) acc =
        acc ++ l.map fun pk => pk.DatabaseFieldName ++ " = ?" := by
    intro l
    induction l with
    | nil => intro acc; simp
    | cons p l ih => intro acc; simp [List.foldl_cons, ih]
  simp only [RelationalModelDefinition.PKWhere, h, List.nil_append]

/-- Without a primary key `PKWhere` is empty, with one it is `<column> = ?`. -/
theorem PKWhere_short (rm : RelationalModelDefinition) :
    (rm.PrimaryKeys = [] → rm.PKWhere = "") ∧
    (∀ pk, rm.PrimaryKeys = [pk] → rm.PKWhere = pk.DatabaseFieldName ++ " = ?") := by
  refine ⟨fun h => ?_, fun pk h => ?_⟩
  · rw [PKWhere_eq, h]
    rfl
  · rw [PKWhere_eq, h]
    simp [Join, String.intercalate, String.intercalate.go]

/-- With two primary keys `PKWhere` puts `and` between the two entries, without spaces. -/
theorem PKWhere_two (rm : RelationalModelDefinition) (p q : RelationalFieldDefinition)
    (h : rm.PrimaryKeys = [p, q]) :
    rm.PKWhere = p.DatabaseFieldName ++ " = ?" ++ "and" ++ (q.DatabaseFieldName ++ " = ?") := by
  rw [PKWhere_eq, h]
  simp [Join, String.intercalate, String.intercalate.go]

/-- C14, on a model with the two primary keys `ID` and `Key`: `PKWhere` returns
`ID = ?andKey = ?`, not the where clause `ID = ? and Key = ?` of its comment; with
the single primary key of `User` it returns `ID = ?`. -/
theorem C14_pkwhere_two_keys :
    (NewRelationalModelDefinition sampleEnv "User" sampleTwoKeys).2 = none ∧
    (NewRelationalModelDefinition sampleEnv "User" sampleTwoKeys).1.PKWhere =
      "ID = ?andKey = ?" ∧
    (NewRelationalModelDefinition sampleEnv "User" sampleTwoKeys).1.PKWhere ≠
      "ID = ? and Key = ?" ∧
    (NewRelationalModelDefinition sampleEnv "User" sampleUser).1.PKWhere = "ID = ?" := by
  decide

/-! ## C13: the field iterator visits a primary-key timestamp twice -/

theorem sampleRangeOrder_valid : sampleRangeOrder.Valid :=
  fun _ l => List.Perm.refl l

theorem sampleDescendingOrder_valid : sampleDescendingOrder.Valid :=
  fun _ l => (List.reverse_perm _).trans (sortStrings_perm l)

/-- C13, on a model whose only field `id` is a primary key and a timestamp: with a
callback that never fails, `IterateFields` invokes the callback twice, once from the
primary-key bucket and once from the timestamp bucket, for a model of one field. -/
theorem C13_key_timestamp_visited_twice :
    (NewRelationalModelDefinition sampleEnv "User" sampleKeyAndTimestamp).2 = none ∧
    (NewRelationalModelDefinition sampleEnv "User" sampleKeyAndTimestamp).1.Fields.length = 1 ∧
    (((NewRelationalModelDefinition sampleEnv "User" sampleKeyAndTimestamp).1.IterateFields
      sampleCallback sampleRangeOrder).1.map fun f => f.Name) = ["ID", "ID"] ∧
    ((NewRelationalModelDefinition sampleEnv "User" sampleKeyAndTimestamp).1.IterateFields
      sampleCallback sampleRangeOrder).1.length = 2 ∧
    ((NewRelationalModelDefinition sampleEnv "User" sampleKeyAndTimestamp).1.IterateFields
      sampleCallback sampleRangeOrder).2 = none := by
  decide

/-! ## The field iterator: the three buckets -/

theorem mem_mapAssign {V : Type} (m : List (String × V)) (k : String) (v : V)
    (x : String × V) (h : x ∈ mapAssign m k v) : x ∈ m ∨ x = (k, v) := by
  induction m with
  | nil =>
    simp only [mapAssign, List.mem_singleton] at h
    exact Or.inr h
  | cons q m ih =>
    obtain ⟨k', v'⟩ := q
    simp only [mapAssign] at h
    by_cases hk : k' = k
    · simp only [hk, if_true, List.mem_cons] at h
      rcases h with h | h
      · exact Or.inr h
      · exact Or.inl (List.mem_cons_of_mem _ h)
    · simp only [hk, if_false, List.mem_cons] at h
      rcases h with h | h
      · exact Or.inl (h ▸ List.mem_cons_self _ _)
      · rcases ih h with h' | h'
        · exact Or.inl (List.mem_cons_of_mem _ h')
        · exact Or.inr h'

/-- Every entry of a bucket stores a key under itself, and the field of the key
passes the test of the bucket. -/
theorem mem_breakOut (rm : RelationalModelDefinition) (p : RelationalFieldDefinition → Bool)
    (order : List String) (k v : String) (h : (k, v) ∈ rm.breakOut p order) :
    k = v ∧ rm.fieldIs p k = true := by
  have hgen : ∀ (order : List String) (m : List (String × String)),
      (∀ k v, (k, v) ∈ m → k = v ∧ rm.fieldIs p k = true) →
      ∀ k v, (k, v) ∈ order.foldl
        (fun m n => if rm.fieldIs p n then mapAssign m n n else m) m →
        k = v ∧ rm.fieldIs p k = true := by
    intro order
    induction order with
    | nil => intro m hm k v hkv; exact hm k v hkv
    | cons n ns ih =>
      intro m hm k v hkv
      rw [List.foldl_cons] at hkv
      refine ih _ ?_ k v hkv
      intro k' v' hk'
      by_cases hn : rm.fieldIs p n = true
      · rw [if_pos hn] at hk'
        rcases mem_mapAssign m n n (k', v') hk' with h1 | h1
        · exact hm k' v' h1
        · simp only [Prod.mk.injEq] at h1
          obtain ⟨rfl, rfl⟩ := h1
          exact ⟨rfl, hn⟩
      · rw [if_neg hn] at hk'
        exact hm k' v' hk'
  exact hgen order [] (fun _ _ h => absurd h (List.not_mem_nil _)) k v h

theorem fieldIs_index (rm : RelationalModelDefinition) (p : RelationalFieldDefinition → Bool)
    (n : String) (h : rm.fieldIs p n = true) :
    ∃ f, mapIndex rm.Fields n = some f ∧ p f = true := by
  unfold RelationalModelDefinition.fieldIs at h
  cases hf : mapIndex rm.Fields n with
  | none => rw [hf] at h; cases h
  | some f => rw [hf] at h; exact ⟨f, rfl, h⟩

theorem mem_rangeValues (rm : RelationalModelDefinition) (p : RelationalFieldDefinition → Bool)
    (order order' : List String) (n : String)
    (h : n ∈ RelationalModelDefinition.rangeValues (rm.breakOut p order) order') :
    rm.fieldIs p n = true := by
  simp only [RelationalModelDefinition.rangeValues, List.mem_filterMap] at h
  obtain ⟨k, -, hk⟩ := h
  have hmem := mapIndex_mem _ k n hk
  obtain ⟨rfl, hp⟩ := mem_breakOut rm p order k n hmem
  exact hp

/-- Every name in `fields` is a key of `rm.Fields`: the last loop never meets a nil
pointer, whatever the enumeration orders. -/
theorem iterationLocals_index (rm : RelationalModelDefinition) (enum : RangeOrder) (n : String)
    (h : n ∈ (rm.iterationLocals enum).2) : ∃ f, mapIndex rm.Fields n = some f := by
  simp only [RelationalModelDefinition.iterationLocals, List.mem_append] at h
  rcases h with (h | h) | h
  · obtain ⟨f, hf, -⟩ := fieldIs_index rm _ n (mem_rangeValues rm _ _ _ n h)
    exact ⟨f, hf⟩
  · obtain ⟨f, hf, -⟩ := fieldIs_index rm _ n (mem_rangeValues rm _ _ _ n h)
    exact ⟨f, hf⟩
  · obtain ⟨f, hf, -⟩ := fieldIs_index rm _ n (mem_rangeValues rm _ _ _ n h)
    exact ⟨f, hf⟩

/-- A bucket built from pairwise distinct keys holds the keys that pass the test, in
the order in which they were enumerated. -/
theorem breakOut_eq (rm : RelationalModelDefinition) (p : RelationalFieldDefinition → Bool)
    (order : List String) (hnd : order.Nodup) :
    rm.breakOut p order = (order.filter (rm.fieldIs p)).map fun n => (n, n) := by
  have hfilter : ∀ (order : List String) (m : List (String × String)),
      order.foldl (fun m n => if rm.fieldIs p n then mapAssign m n n else m) m =
        ((order.filter (rm.fieldIs p)).map fun n => (n, n)).foldl
          (fun m q => mapAssign m q.1 q.2) m := by
    intro order
    induction order with
    | nil => intro m; rfl
    | cons n ns ih =>
      intro m
      by_cases hn : rm.fieldIs p n = true
      · simp [List.foldl_cons, List.filter_cons, hn, ih]
      · simp [List.foldl_cons, List.filter_cons, hn, ih]
  unfold RelationalModelDefinition.breakOut
  rw [hfilter order []]
  have hkeys : mapKeys ((order.filter (rm.fieldIs p)).map fun n => (n, n)) =
      order.filter (rm.fieldIs p) := by
    simp [mapKeys, List.map_map, Function.comp_def]
  have := foldl_mapAssign_fresh ((order.filter (rm.fieldIs p)).map fun n => (n, n)) []
    (by rw [List.nil_append, hkeys]; exact hnd.filter _)
  simpa using this

theorem rangeValues_diag (l order : List String) (h : ∀ n ∈ order, n ∈ l) :
    RelationalModelDefinition.rangeValues (l.map fun n => (n, n)) order = order := by
  have hidx : ∀ n ∈ l, mapIndex (l.map fun n => (n, n)) n = some n := by
    intro n hn
    obtain ⟨v, hv⟩ := mapIndex_of_mem_mapKeys (l.map fun n => (n, n)) n
      (by simpa [mapKeys, List.map_map, Function.comp_def] using hn)
    have hmem := mapIndex_mem _ n v hv
    simp only [List.mem_map, Prod.mk.injEq] at hmem
    obtain ⟨k, -, hk1, hk2⟩ := hmem
    rw [hv, ← hk2, hk1]
  unfold RelationalModelDefinition.rangeValues
  induction order with
  | nil => rfl
  | cons n ns ih =>
    rw [List.filterMap_cons, hidx n (h n (List.mem_cons_self _ _))]
    simp only
    rw [ih fun m hm => h m (List.mem_cons_of_mem _ hm)]

/-- The names in `fields` for a well-formed map and valid enumeration orders: each
bucket in the order in which its own `range` enumerates it. -/
theorem iterationLocals_fields (rm : RelationalModelDefinition) (enum : RangeOrder)
    (hv : enum.Valid) (hnd : (mapKeys rm.Fields).Nodup) :
    (rm.iterationLocals enum).2 =
      enum 4 ((enum 0 (mapKeys rm.Fields)).filter (rm.fieldIs fun f => f.PrimaryKey)) ++
      enum 5 ((enum 1 (mapKeys rm.Fields)).filter
        (rm.fieldIs fun f => !f.PrimaryKey && !f.Timestamp)) ++
      enum 6 ((enum 2 (mapKeys rm.Fields)).filter (rm.fieldIs fun f => f.Timestamp)) := by
  have hb : ∀ (i j : Nat) (p : RelationalFieldDefinition → Bool),
      RelationalModelDefinition.rangeValues (rm.breakOut p (enum i (mapKeys rm.Fields)))
          (enum j (mapKeys (rm.breakOut p (enum i (mapKeys rm.Fields))))) =
        enum j ((enum i (mapKeys rm.Fields)).filter (rm.fieldIs p)) := by
    intro i j p
    have hndi : (enum i (mapKeys rm.Fields)).Nodup := (hv i _).nodup_iff.mpr hnd
    rw [breakOut_eq rm p _ hndi]
    have hkeys : mapKeys (((enum i (mapKeys rm.Fields)).filter (rm.fieldIs p)).map
        fun n => (n, n)) = (enum i (mapKeys rm.Fields)).filter (rm.fieldIs p) := by
      simp [mapKeys, List.map_map, Function.comp_def]
    rw [hkeys]
    exact rangeValues_diag _ _ fun n hn => (hv j _).subset hn
  simp only [RelationalModelDefinition.iterationLocals, hb]

/-! ## The field iterator: the last loop -/

/-- The last loop over names whose fields all pass the callback, followed by more
names: the callback is invoked on each of the first, then the loop goes on. -/
theorem iterateLoop_append (rm : RelationalModelDefinition)
    (it : RelationalFieldDefinition → Option String) (pre rest : List String)
    (hidx : ∀ n ∈ pre, ∃ f, mapIndex rm.Fields n = some f)
    (hok : ∀ n ∈ pre, ∀ g, mapIndex rm.Fields n = some g → it g = none) :
    rm.iterateLoop it (pre ++ rest) =
      (pre.filterMap (mapIndex rm.Fields) ++ (rm.iterateLoop it rest).1,
        (rm.iterateLoop it rest).2) := by
  induction pre with
  | nil => rfl
  | cons n ns ih =>
    obtain ⟨f, hf⟩ := hidx n (List.mem_cons_self _ _)
    have hit : it f = none := hok n (List.mem_cons_self _ _) f hf
    have ih' := ih (fun m hm => hidx m (List.mem_cons_of_mem _ hm))
      (fun m hm => hok m (List.mem_cons_of_mem _ hm))
    simp only [List.cons_append, RelationalModelDefinition.iterateLoop, hf, hit,
      List.filterMap_cons]
    have happ : ns.append rest = ns ++ rest := rfl
    rw [happ, ih']

/-! ## C18, C19 -/

/-- C18: the sorted list `sortfields` plays no part in the visiting order. For a
well-formed field map and any enumeration orders, `fields` is the primary-key bucket,
the plain bucket and the timestamp bucket, each in the order in which its own `range`
enumerates it. For the model with the plain fields `a` and `b` and the descending
enumeration, the plain fields are visited as `b`, `a`, while `sortfields` only ever
had its first slot written. -/
theorem C18_plain_bucket_in_enumeration_order :
    (∀ (rm : RelationalModelDefinition) (enum : RangeOrder), enum.Valid →
      (mapKeys rm.Fields).Nodup →
      (rm.iterationLocals enum).2 =
        enum 4 ((enum 0 (mapKeys rm.Fields)).filter (rm.fieldIs fun f => f.PrimaryKey)) ++
        enum 5 ((enum 1 (mapKeys rm.Fields)).filter
          (rm.fieldIs fun f => !f.PrimaryKey && !f.Timestamp)) ++
        enum 6 ((enum 2 (mapKeys rm.Fields)).filter (rm.fieldIs fun f => f.Timestamp))) ∧
    (∃ enum : RangeOrder, enum.Valid ∧
      (mapKeys (NewRelationalModelDefinition sampleEnv "User" sampleTwoPlain).1.Fields).Nodup ∧
      stringLE "a" "b" ∧ ¬ stringLE "b" "a" ∧
      (NewRelationalModelDefinition sampleEnv "User" sampleTwoPlain).1.fieldIs
        (fun f => !f.PrimaryKey && !f.Timestamp) "a" = true ∧
      (NewRelationalModelDefinition sampleEnv "User" sampleTwoPlain).1.fieldIs
        (fun f => !f.PrimaryKey && !f.Timestamp) "b" = true ∧
      (NewRelationalModelDefinition sampleEnv "User" sampleTwoPlain).1.iterationLocals enum =
        (["", "a"], ["b", "a"]) ∧
      (((NewRelationalModelDefinition sampleEnv "User" sampleTwoPlain).1.IterateFields
        sampleCallback enum).1.map fun f => f.Name) = ["B", "A"]) := by
  refine ⟨fun rm enum hv hnd => iterationLocals_fields rm enum hv hnd,
    sampleDescendingOrder, sampleDescendingOrder_valid, ?_⟩
  decide

/-- C19: `IterateFields` stops at the first failing callback. If the callback fails
on the field of a name in `fields` and on none before it, `IterateFields` returns that
error and has invoked the callback on the fields up to that one and on no later one;
if the callback fails on no field, `IterateFields` returns no error and has invoked
the callback on every name in `fields`. -/
theorem C19_stops_at_first_error (rm : RelationalModelDefinition)
    (it : RelationalFieldDefinition → Option String) (enum : RangeOrder) :
    (∀ pre n post f e, (rm.iterationLocals enum).2 = pre ++ n :: post →
      (∀ m ∈ pre, ∀ g, mapIndex rm.Fields m = some g → it g = none) →
      mapIndex rm.Fields n = some f → it f = some e →
      rm.IterateFields it enum = (pre.filterMap (mapIndex rm.Fields) ++ [f], some e)) ∧
    ((∀ m ∈ (rm.iterationLocals enum).2, ∀ g, mapIndex rm.Fields m = some g → it g = none) →
      rm.IterateFields it enum =
        ((rm.iterationLocals enum).2.filterMap (mapIndex rm.Fields), none) ∧
      (rm.IterateFields it enum).1.length = (rm.iterationLocals enum).2.length) := by
  refine ⟨?_, ?_⟩
  · intro pre n post f e hsplit hpre hf he
    have hidx : ∀ m ∈ pre, ∃ g, mapIndex rm.Fields m = some g := by
      intro m hm
      apply iterationLocals_index rm enum m
      rw [hsplit]
      exact List.mem_append_left _ hm
    unfold RelationalModelDefinition.IterateFields
    rw [hsplit, iterateLoop_append rm it pre (n :: post) hidx hpre]
    simp only [RelationalModelDefinition.iterateLoop, hf, he]
  · intro hall
    have hidx : ∀ m ∈ (rm.iterationLocals enum).2, ∃ g, mapIndex rm.Fields m = some g :=
      fun m hm => iterationLocals_index rm enum m hm
    have heq : rm.IterateFields it enum =
        ((rm.iterationLocals enum).2.filterMap (mapIndex rm.Fields), none) := by
      unfold RelationalModelDefinition.IterateFields
      have := iterateLoop_append rm it (rm.iterationLocals enum).2 [] hidx hall
      rw [List.append_nil] at this
      rw [this]
      simp [RelationalModelDefinition.iterateLoop]
    refine ⟨heq, ?_⟩
    rw [heq]
    simp only
    generalize (rm.iterationLocals enum).2 = l at hidx
    induction l with
    | nil => rfl
    | cons n ns ih =>
      obtain ⟨g, hg⟩ := hidx n (List.mem_cons_self _ _)
      rw [List.filterMap_cons, hg]
      simp only [List.length_cons]
      rw [ih fun m hm => hidx m (List.mem_cons_of_mem _ hm)]

/-- The field iterator on `User` with a callback that fails on `Email`: the primary key
`ID` and `Email` are visited, the timestamp `DeletedAt` is not, and the error comes
back. -/
theorem iterate_stops_on_email :
    ((NewRelationalModelDefinition sampleEnv "User" sampleUser).1.IterateFields
        (fun f => if f.Name = "Email" then some "stop" else none) sampleRangeOrder).2 =
      some "stop" ∧
    (((NewRelationalModelDefinition sampleEnv "User" sampleUser).1.IterateFields
        (fun f => if f.Name = "Email" then some "stop" else none) sampleRangeOrder).1.map
      fun f => f.Name) = ["ID", "Email"] := by
  decide

/-! ## The field iterator: how often the callback is invoked -/

theorem bucket_count (rm : RelationalModelDefinition) (l : List String)
    (hidx : ∀ n ∈ l, ∃ f, mapIndex rm.Fields n = some f) :
    (l.filter (rm.fieldIs fun f => f.PrimaryKey)).length +
        (l.filter (rm.fieldIs fun f => !f.PrimaryKey && !f.Timestamp)).length +
        (l.filter (rm.fieldIs fun f => f.Timestamp)).length =
      l.length + (l.filter (rm.fieldIs fun f => f.PrimaryKey && f.Timestamp)).length := by
  induction l with
  | nil => rfl
  | cons n ns ih =>
    obtain ⟨f, hf⟩ := hidx n (List.mem_cons_self _ _)
    have ih' := ih fun m hm => hidx m (List.mem_cons_of_mem _ hm)
    have hfi : ∀ p : RelationalFieldDefinition → Bool, rm.fieldIs p n = p f := by
      intro p
      simp only [RelationalModelDefinition.fieldIs, hf]
    simp only [List.filter_cons, hfi]
    cases f.PrimaryKey <;> cases f.Timestamp <;> simp <;> omega

/-- With a callback that never fails, a well-formed field map and valid enumeration
orders, `IterateFields` invokes the callback once per field and once more for every
field that is both a primary key and a timestamp. -/
theorem IterateFields_invocations (rm : RelationalModelDefinition)
    (it : RelationalFieldDefinition → Option String) (enum : RangeOrder)
    (hv : enum.Valid) (hnd : (mapKeys rm.Fields).Nodup) (hall : ∀ f, it f = none) :
    (rm.IterateFields it enum).1.length =
      rm.Fields.length +
        ((mapKeys rm.Fields).filter
          (rm.fieldIs fun f => f.PrimaryKey && f.Timestamp)).length := by
  have hidx : ∀ m ∈ (rm.iterationLocals enum).2, ∃ g, mapIndex rm.Fields m = some g :=
    fun m hm => iterationLocals_index rm enum m hm
  have hloop := iterateLoop_append rm it (rm.iterationLocals enum).2 [] hidx
    (fun m _ g _ => hall g)
  rw [List.append_nil] at hloop
  have hlen : ∀ l : List String, (∀ m ∈ l, ∃ g, mapIndex rm.Fields m = some g) →
      (l.filterMap (mapIndex rm.Fields)).length = l.length := by
    intro l
    induction l with
    | nil => intro _; rfl
    | cons n ns ih =>
      intro h
      obtain ⟨g, hg⟩ := h n (List.mem_cons_self _ _)
      rw [List.filterMap_cons, hg]
      simp only [List.length_cons]
      rw [ih fun m hm => h m (List.mem_cons_of_mem _ hm)]
  unfold RelationalModelDefinition.IterateFields
  rw [hloop]
  simp only [RelationalModelDefinition.iterateLoop, List.append_nil]
  rw [hlen _ hidx, iterationLocals_fields rm enum hv hnd]
  have hperm : ∀ (i j : Nat) (p : String → Bool),
      (enum j ((enum i (mapKeys rm.Fields)).filter p)).length =
        ((mapKeys rm.Fields).filter p).length := by
    intro i j p
    rw [(hv j _).length_eq, ((hv i _).filter p).length_eq]
  simp only [List.length_append, hperm]
  have hk : (mapKeys rm.Fields).length = rm.Fields.length := by
    simp [mapKeys]
  rw [← hk]
  exact bucket_count rm (mapKeys rm.Fields)
    fun n hn => mapIndex_of_mem_mapKeys rm.Fields n hn

end Gorma
